import Mathlib

/-
Verification of the `SimpleOutputPredictor` from `pkg/cache/output_predictor.go`.

The Go source is shallowly embedded below.  Conventions of the embedding:

* `time.Time` and `time.Duration` are nanosecond counts.  Timestamps are `Int`
  (a `time.Time` relative to an arbitrary epoch), the window duration passed to
  the constructor is a `Nat` (a non-negative `time.Duration`).
* `int32` counters are embedded as `Int` (the claims under study are about the
  structural accounting of the counters, not about 32-bit wrap-around).
* Go slices of counters become `List Int`; `xs[i]` reads become `xs.getD i 0`
  and `xs[i] = v` writes become `xs.set i v`.  All indexing performed by the
  code under its documented configuration is proved in bounds (claim C8),
  where Go would panic on an out-of-bounds index.
* The methods are executed sequentially: the background `go p.rotate(ts)`
  spawned by `tryRotate` is modelled as running to completion before the
  ingest continues (this is exactly the serialization the Go code enforces in
  its testing mode via `testWait`, and the order `runtime.Gosched` aims for).
* The two `for` loops whose textual termination is not structural
  (`forwardLocked`'s interval loop and `rotate`'s tail-reset loop) are given
  explicit fuel.  The fuel is provably sufficient for the interval loop, and
  sufficient for the tail-reset loop in every reachable state of a predictor
  with a positive window (with a zero-duration window the Go loop itself
  never terminates, so no state "after" such a rotation exists).
* `math.Round(math.Log2(float64(n)))` for an integer `n ≥ 1` equals the
  integer `k` with `2^(2k-1) ≤ n^2 < 2^(2k+1)` (rounding half away from
  zero; `log2 n` is never close enough to a half-integer for the float64
  computation to differ for any `n` of relevant magnitude).  It is embedded
  as `roundLog2` via a fuelled floor-log2.  Similarly
  `math.Ceil(math.Log2(float64(m)))` for `m ≥ 1` is `ceilLog2 m`.
-/

namespace OutputPredictor

/-- `MovingInterval = 10 * time.Second`, in nanoseconds. -/
def MovingInterval : Int := 10000000000

/-- `MaxOutputLen` constant from the source. -/
def MaxOutputLen : Nat := 4096

/-- The four cold-prediction strategy constants from the source. -/
inductive ColdPredictionStrategy where
  | OptimisticColdPrediction
  | RandomColdPredition
  | InputColdPrediction
  | PessimiticColdPrediction
deriving DecidableEq

/-- `DefaultColdPrediction = OptimisticColdPrediction` (compile-time constant). -/
def DefaultColdPrediction : ColdPredictionStrategy :=
  ColdPredictionStrategy.OptimisticColdPrediction

/-- Fuelled floor of `log2`: `log2fuel fuel n` halves `n` until it drops below
`2`, counting the steps.  For `1 ≤ n ≤ fuel` this is `⌊log2 n⌋`. -/
def log2fuel : Nat → Nat → Nat
  | 0, _ => 0
  | fuel + 1, n => if 2 ≤ n then log2fuel fuel (n / 2) + 1 else 0

/-- `⌊log2 m⌋` for `m ≥ 1` (and `0` for `m = 0`). -/
def floorLog2 (m : Nat) : Nat := log2fuel m m

/-- `⌈log2 m⌉` for `m ≥ 1`, i.e. `math.Ceil(math.Log2(float64(m)))` in the
source's derived-constant computations. -/
def ceilLog2 (m : Nat) : Nat := if m ≤ 1 then 0 else floorLog2 (m - 1) + 1

/-- `round(log2 n)` (round half away from zero) for `n ≥ 1`, i.e.
`int(math.Round(math.Log2(float64(n))))` in `token2bucket`:
the unique `k` with `2^(2k-1) ≤ n^2 < 2^(2k+1)`, computed as
`⌊log2 (2*n^2)⌋ / 2`. -/
def roundLog2 (n : Nat) : Nat := floorLog2 (2 * n ^ 2) / 2

/-- `(p *SimpleOutputPredictor) token2bucket(tokens, limit int) int`
(the receiver is unused in the source). -/
def token2bucket (tokens limit : Int) : Int :=
  let bucket : Int := if tokens > 0 then (roundLog2 tokens.toNat : Int) else 0
  if bucket ≥ limit then limit - 1 else bucket

/-- An `outputDistribution` is a flat vector of `inputBuckets*outputBuckets`
counters plus one trailing skip slot. -/
abbrev outputDistribution := List Int

/-- `(hist outputDistribution) setSkipped(skipped int32)`. -/
def setSkipped (hist : outputDistribution) (skipped : Int) : outputDistribution :=
  hist.set (hist.length - 1) skipped

/-- `(hist outputDistribution) getSkipped() int32`. -/
def getSkipped (hist : outputDistribution) : Int :=
  hist.getD (hist.length - 1) 0

/-- One iteration of the loop in `(hist outputDistribution) reset`:
subtract `hist[i]` from `sums[inputBucket]` and from `distributions[i]`,
zero `hist[i]`, then advance the `(inputBucket, leftOutputBucket)` pair.
The accumulator carries `(hist, distributions, sums, inputBucket,
leftOutputBucket)`. -/
def resetStep (outputBuckets : Nat)
    (acc : outputDistribution × outputDistribution × List Int × Nat × Int) (i : Nat) :
    outputDistribution × outputDistribution × List Int × Nat × Int :=
  let h := acc.1
  let d := acc.2.1
  let s := acc.2.2.1
  let inputBucket := acc.2.2.2.1
  let leftOutputBucket := acc.2.2.2.2
  let v := h.getD i 0
  let s' := s.set inputBucket (s.getD inputBucket 0 - v)
  let d' := d.set i (d.getD i 0 - v)
  let h' := h.set i 0
  let left' := leftOutputBucket - 1
  if left' = 0 then (h', d', s', inputBucket + 1, (outputBuckets : Int))
  else (h', d', s', inputBucket, left')

/-- `(hist outputDistribution) reset(distributions, sums, outputBuckets)`:
the loop runs `i` from `0` to `len(hist)-2`, then zeroes the skip slot
`hist[len(hist)-1]`.  Returns the new `(hist, distributions, sums)`. -/
def reset (hist distributions : outputDistribution) (sums : List Int)
    (outputBuckets : Nat) : outputDistribution × outputDistribution × List Int :=
  let st := (List.range (hist.length - 1)).foldl (resetStep outputBuckets)
    (hist, distributions, sums, 0, (outputBuckets : Int))
  (st.1.set (hist.length - 1) 0, st.2.1, st.2.2.1)

/-- The rotating ring of interval slices. -/
structure RotatingHistory where
  window : List outputDistribution
  head : Nat
  tail : Nat
  headTimestamp : Int
  size : Int

/-- `(hist *rotatingHistory) Tail()`. -/
def RotatingHistory.Tail (hist : RotatingHistory) : outputDistribution :=
  hist.window.getD hist.tail []

/-- `(hist *rotatingHistory) Head()`. -/
def RotatingHistory.Head (hist : RotatingHistory) : outputDistribution :=
  hist.window.getD hist.head []

/-- `(hist *rotatingHistory) Size()`. -/
def RotatingHistory.Size (hist : RotatingHistory) : Int := hist.size

/-- The `for ts.Sub(newHeadTimestamp) >= MovingInterval` loop of
`forwardLocked`, with fuel.  Arguments after the fuel: `ts`,
`newHeadTimestamp`, `forwarded`.  Returns `(forwarded, newHeadTimestamp)`.
Each iteration moves `newHeadTimestamp` up by `MovingInterval ≥ 1`
nanoseconds, so fuel `(ts - headTimestamp).toNat + 1` is always enough
(`forwardLoop_spec` below). -/
def forwardLoop : Nat → Int → Int → Int → Int × Int
  | 0, _, newHeadTimestamp, forwarded => (forwarded, newHeadTimestamp)
  | fuel + 1, ts, newHeadTimestamp, forwarded =>
    if MovingInterval ≤ ts - newHeadTimestamp then
      forwardLoop fuel ts (newHeadTimestamp + MovingInterval) (forwarded + 1)
    else (forwarded, newHeadTimestamp)

/-- `(hist *rotatingHistory) forwardLocked(ts time.Time) int32`.
Returns the updated history together with `forwarded`. -/
def RotatingHistory.forwardLocked (hist : RotatingHistory) (ts : Int) :
    RotatingHistory × Int :=
  if ts - hist.headTimestamp < MovingInterval then (hist, 0)
  else
    let fw := forwardLoop ((ts - hist.headTimestamp).toNat + 1) ts hist.headTimestamp 0
    let head := (hist.head + 1) % hist.window.length
    ({ window := hist.window.set head (setSkipped (hist.window.getD head []) fw.1)
       head := head
       tail := hist.tail
       headTimestamp := fw.2
       size := hist.size + fw.1 }, fw.1)

/-- `(hist *rotatingHistory) resetTail(distributions, sums, outputBuckets)`:
reset the tail slice, advance `tail`, subtract the new tail's skip count from
`size`.  Returns the new `(history, distributions, sums)`. -/
def RotatingHistory.resetTail (hist : RotatingHistory)
    (distributions : outputDistribution) (sums : List Int) (outputBuckets : Nat) :
    RotatingHistory × outputDistribution × List Int :=
  let r := reset hist.Tail distributions sums outputBuckets
  let window := hist.window.set hist.tail r.1
  let tail := (hist.tail + 1) % window.length
  ({ window := window
     head := hist.head
     tail := tail
     headTimestamp := hist.headTimestamp
     size := hist.size - getSkipped (window.getD tail []) }, r.2.1, r.2.2)

/-- The predictor.  The mutex, the RNG field and the testing hooks carry no
summary/history state and are not part of the embedding; the RNG is passed
to `Predict` explicitly. -/
structure SimpleOutputPredictor where
  history : RotatingHistory
  inputs : outputDistribution
  inputsSums : List Int
  inputBuckets : Nat
  outputBuckets : Nat

/-- `NewSimpleOutputPredictor(maxInputTokens, maxOutputTokens int, window
time.Duration)`.  `now` stands for the `time.Now()` taken at construction.
Note the source performs no validation of its arguments and has no error
return. -/
def NewSimpleOutputPredictor (maxInputTokens maxOutputTokens : Nat)
    (window : Nat) (now : Int) : SimpleOutputPredictor :=
  let extraSlot := if window % MovingInterval.toNat > 0 then 2 else 1
  let inputBuckets := ceilLog2 (maxInputTokens + 1)
  let outputBuckets := ceilLog2 (maxOutputTokens + 1)
  { history :=
      { window := List.replicate (window / MovingInterval.toNat + extraSlot)
          (List.replicate (inputBuckets * outputBuckets + 1) 0)
        head := 0
        tail := 0
        headTimestamp := now
        size := 0 }
    inputs := List.replicate (inputBuckets * outputBuckets) 0
    inputsSums := List.replicate inputBuckets 0
    inputBuckets := inputBuckets
    outputBuckets := outputBuckets }

/-- `(p *SimpleOutputPredictor) bucket2idx(inputBucket, outputBucket int)`. -/
def SimpleOutputPredictor.bucket2idx (p : SimpleOutputPredictor)
    (inputBucket outputBucket : Nat) : Nat :=
  inputBucket * p.outputBuckets + outputBucket

/-- The guarded `for p.history.Size() >= window` loop of `rotate`, with fuel.
Each iteration calls `resetTail`.  In every reachable state of a predictor
with a positive window the fuel passed by `rotate` is sufficient
(`rotateLoop_spec` below). -/
def rotateLoop : Nat → SimpleOutputPredictor → Int → SimpleOutputPredictor
  | 0, p, _ => p
  | fuel + 1, p, window =>
    if p.history.Size ≥ window then
      let r := p.history.resetTail p.inputs p.inputsSums p.outputBuckets
      rotateLoop fuel
        { p with history := r.1, inputs := r.2.1, inputsSums := r.2.2 } window
    else p

/-- `(p *SimpleOutputPredictor) rotate(ts time.Time) bool`.  The
`klog.Error` on the spare-slot violation is dropped (it only logs). -/
def SimpleOutputPredictor.rotate (p : SimpleOutputPredictor) (ts : Int) :
    SimpleOutputPredictor × Bool :=
  let window : Int := (p.history.window.length : Int) - 1
  if p.history.Size > window then (p, false)
  else
    let fw := p.history.forwardLocked ts
    if fw.2 = 0 then (p, true)
    else
      let p1 : SimpleOutputPredictor := { p with history := fw.1 }
      (rotateLoop (fw.1.size.toNat + 1) p1 window, true)

/-- `(p *SimpleOutputPredictor) tryRotate(ts time.Time)`: schedules
`rotate(ts)`; modelled as the scheduled rotation running to completion. -/
def SimpleOutputPredictor.tryRotate (p : SimpleOutputPredictor) (ts : Int) :
    SimpleOutputPredictor :=
  if ts - p.history.headTimestamp < MovingInterval then p
  else (p.rotate ts).1

/-- The three atomic additions at the end of `AddTraceWithTimestamp`
(performed under the read lock): summary cell, summary row sum, head slice
cell. -/
def SimpleOutputPredictor.addLocked (p : SimpleOutputPredictor)
    (inputTokens outputTokens : Int) (cnt : Int) : SimpleOutputPredictor :=
  let inputBucket := (token2bucket inputTokens (p.inputBuckets : Int)).toNat
  let idx := p.bucket2idx inputBucket (token2bucket outputTokens (p.outputBuckets : Int)).toNat
  let headSlice := p.history.window.getD p.history.head []
  { p with
    inputs := p.inputs.set idx (p.inputs.getD idx 0 + cnt)
    inputsSums := p.inputsSums.set inputBucket (p.inputsSums.getD inputBucket 0 + cnt)
    history := { p.history with
      window := p.history.window.set p.history.head
        (headSlice.set idx (headSlice.getD idx 0 + cnt)) } }

/-- `(p *SimpleOutputPredictor) AddTraceWithTimestamp(inputTokens,
outputTokens int, cnt int32, ts time.Time)`. -/
def SimpleOutputPredictor.AddTraceWithTimestamp (p : SimpleOutputPredictor)
    (inputTokens outputTokens : Int) (cnt : Int) (ts : Int) :
    SimpleOutputPredictor :=
  (p.tryRotate ts).addLocked inputTokens outputTokens cnt

/-- `(p *SimpleOutputPredictor) coldPredict(inputTokens int) int`.
`grand` stands for the value drawn from the package-global
`rand.Intn(MaxOutputLen)` in the `RandomColdPredition` branch. -/
def coldPredict (grand : Nat) (inputTokens : Int) : Int :=
  match DefaultColdPrediction with
  | .RandomColdPredition => ((grand % MaxOutputLen : Nat) : Int) + 1
  | .InputColdPrediction => inputTokens
  | .PessimiticColdPrediction => (MaxOutputLen : Int)
  | .OptimisticColdPrediction => 1

/-- The weighted-sampling scan of `Predict`: `i` runs from
`scanRange - outputBuckets` to `scanRange - 1`; on `cursor < accumulation`
it returns `2^(i - scanRange + outputBuckets)` (written with truncated `Nat`
subtraction, which agrees with the Go `int` arithmetic since `i + outputBuckets
≥ scanRange` throughout the scan); falling out of the loop returns
`2^(outputBuckets-1)`.  The first `Nat` argument after `outputBuckets` is
fuel mirroring `scanRange - i` (the loop runs `outputBuckets` times), so the
recursion is structural. -/
def predictLoop (inputs : outputDistribution) (cursor : Int)
    (scanRange outputBuckets : Nat) : Nat → Int → Nat → Int
  | 0, _, _ => (2 : Int) ^ (outputBuckets - 1)
  | fuel + 1, accumulation, i =>
    if i < scanRange then
      if cursor < accumulation + inputs.getD i 0 then
        ((2 : Int) ^ (i + outputBuckets - scanRange))
      else predictLoop inputs cursor scanRange outputBuckets fuel
        (accumulation + inputs.getD i 0) (i + 1)
    else (2 : Int) ^ (outputBuckets - 1)

/-- `(p *SimpleOutputPredictor) Predict(inputTokens int) int`.
`rand` is the predictor's `rand` field (`rand.Int31n` in production),
`grand` the global RNG draw used only by `coldPredict`'s random branch.
The pair result makes explicit that the method leaves the predictor
unchanged (it only performs atomic loads). -/
def SimpleOutputPredictor.Predict (p : SimpleOutputPredictor)
    (rand : Int → Int) (grand : Nat) (inputTokens : Int) :
    SimpleOutputPredictor × Int :=
  let inputBucket := (token2bucket inputTokens (p.inputBuckets : Int)).toNat
  let randRange := p.inputsSums.getD inputBucket 0
  if randRange = 0 then (p, coldPredict grand inputTokens)
  else
    let cursor := rand randRange
    let scanRange := (inputBucket + 1) * p.outputBuckets
    (p, predictLoop p.inputs cursor scanRange p.outputBuckets p.outputBuckets 0
      (scanRange - p.outputBuckets))

/-- `(p *SimpleOutputPredictor) AddTrace` delegates to
`AddTraceWithTimestamp` with `time.Now()`; `now` stands for that clock
reading. -/
def SimpleOutputPredictor.AddTrace (p : SimpleOutputPredictor)
    (inputTokens outputTokens : Int) (cnt : Int) (now : Int) :
    SimpleOutputPredictor :=
  p.AddTraceWithTimestamp inputTokens outputTokens cnt now

/-! ### The live region of the ring

The slices whose contents are reflected in the summary are the positions
from `tail` to `head` inclusive, walking forward around the ring.
`liveDist` is the number of ring steps from `tail` to `head`. -/

/-- Ring distance from `t` to `h` in a ring of `R` positions. -/
def liveDistN (R t h : Nat) : Nat := (h + R - t) % R

/-- The ring positions `t, t+1, …, h` (mod `R`). -/
def livePositionsN (R t h : Nat) : List Nat :=
  (List.range (liveDistN R t h + 1)).map (fun k => (t + k) % R)

/-- The ring positions strictly after `t` up to `h` (mod `R`). -/
def liveAfterTailN (R t h : Nat) : List Nat :=
  (List.range (liveDistN R t h)).map (fun k => (t + 1 + k) % R)

/-- Ring distance from `tail` to `head`. -/
def liveDist (hist : RotatingHistory) : Nat :=
  liveDistN hist.window.length hist.tail hist.head

/-- The positions of the live slices: `tail, tail+1, …, head` (mod ring
size); the head slice is the last element. -/
def livePositions (hist : RotatingHistory) : List Nat :=
  livePositionsN hist.window.length hist.tail hist.head

/-- The live positions strictly after `tail` (the ones whose skip slots are
counted in `size`). -/
def liveAfterTail (hist : RotatingHistory) : List Nat :=
  liveAfterTailN hist.window.length hist.tail hist.head

/-! ### Generic list helpers -/

theorem getD_set_self {α : Type} (l : List α) (i : Nat) (v d : α)
    (h : i < l.length) : (l.set i v).getD i d = v := by
  simp [List.getD_eq_getElem?_getD, List.getElem?_set_self', h]

theorem getD_set_ne {α : Type} (l : List α) {i j : Nat} (v d : α)
    (h : i ≠ j) : (l.set i v).getD j d = l.getD j d := by
  simp [List.getD_eq_getElem?_getD, List.getElem?_set_ne h]

theorem getD_replicate_zero (n k : Nat) : (List.replicate n (0 : Int)).getD k 0 = 0 := by
  rcases Nat.lt_or_ge k n with h | h
  · simp [List.getD_eq_getElem?_getD, List.getElem?_replicate, h]
  · simp [List.getD_eq_getElem?_getD, List.getElem?_eq_none, h, Nat.not_lt.mpr h]

theorem sum_map_congr {α : Type} {l : List α} {f g : α → Int}
    (h : ∀ x ∈ l, f x = g x) : (l.map f).sum = (l.map g).sum := by
  rw [List.map_congr_left h]

theorem length_le_sum_map {α : Type} {l : List α} {f : α → Int}
    (h : ∀ x ∈ l, 1 ≤ f x) : (l.length : Int) ≤ (l.map f).sum := by
  induction l with
  | nil => simp
  | cons a t ih =>
    have ha := h a (List.mem_cons_self a t)
    have ht := ih (fun x hx => h x (List.mem_cons_of_mem a hx))
    simp only [List.map_cons, List.sum_cons, List.length_cons]
    push_cast
    omega

theorem sum_map_nonneg {α : Type} {l : List α} {f : α → Int}
    (h : ∀ x ∈ l, 0 ≤ f x) : 0 ≤ (l.map f).sum := by
  induction l with
  | nil => simp
  | cons a t ih =>
    have ha := h a (List.mem_cons_self a t)
    have ht := ih (fun x hx => h x (List.mem_cons_of_mem a hx))
    simp only [List.map_cons, List.sum_cons]
    omega

/-! ### Arithmetic helpers for ring positions -/

theorem mod_cancel_of_lt {R a b t : Nat} (ha : a < R) (hb : b < R)
    (h : (t + a) % R = (t + b) % R) : a = b := by
  have h2 : a % R = b % R := Nat.ModEq.add_left_cancel' t h
  rwa [Nat.mod_eq_of_lt ha, Nat.mod_eq_of_lt hb] at h2

/-! ### `log2` helpers -/

theorem log2fuel_spec : ∀ (fuel n : Nat), 1 ≤ n → n ≤ fuel →
    2 ^ log2fuel fuel n ≤ n ∧ n < 2 ^ (log2fuel fuel n + 1) := by
  intro fuel
  induction fuel with
  | zero => intro n h1 h2; omega
  | succ fuel ih =>
    intro n h1 h2
    rw [log2fuel]
    by_cases h : 2 ≤ n
    · rw [if_pos h]
      obtain ⟨ha, hb⟩ := ih (n / 2) (by omega) (by omega)
      constructor
      · calc 2 ^ (log2fuel fuel (n / 2) + 1) = 2 ^ log2fuel fuel (n / 2) * 2 := by
              ring
          _ ≤ n / 2 * 2 := by exact Nat.mul_le_mul_right 2 ha
          _ ≤ n := by omega
      · have : n < 2 ^ (log2fuel fuel (n / 2) + 1) * 2 :=
          (Nat.div_lt_iff_lt_mul (by omega)).mp hb
        calc n < 2 ^ (log2fuel fuel (n / 2) + 1) * 2 := this
          _ = 2 ^ (log2fuel fuel (n / 2) + 1 + 1) := by ring
    · rw [if_neg h]
      simp only [pow_zero, pow_one]
      omega

theorem floorLog2_spec {m : Nat} (h : 1 ≤ m) :
    2 ^ floorLog2 m ≤ m ∧ m < 2 ^ (floorLog2 m + 1) :=
  log2fuel_spec m m h (Nat.le_refl m)

theorem floorLog2_mono {m1 m2 : Nat} (h1 : 1 ≤ m1) (h : m1 ≤ m2) :
    floorLog2 m1 ≤ floorLog2 m2 := by
  obtain ⟨ha1, _⟩ := floorLog2_spec h1
  obtain ⟨_, hb2⟩ := floorLog2_spec (le_trans h1 h)
  have : 2 ^ floorLog2 m1 < 2 ^ (floorLog2 m2 + 1) := by omega
  have := (Nat.pow_lt_pow_iff_right (by omega : 1 < 2)).mp this
  omega

theorem roundLog2_zero : roundLog2 0 = 0 := by decide

theorem roundLog2_mono {n1 n2 : Nat} (h : n1 ≤ n2) :
    roundLog2 n1 ≤ roundLog2 n2 := by
  rcases Nat.eq_zero_or_pos n1 with h0 | h0
  · subst h0; rw [roundLog2_zero]; omega
  · unfold roundLog2
    have hp : 1 ≤ n1 ^ 2 := Nat.one_le_pow 2 n1 h0
    have h1 : 1 ≤ 2 * n1 ^ 2 := by omega
    have h2 : 2 * n1 ^ 2 ≤ 2 * n2 ^ 2 := by
      have := Nat.pow_le_pow_left h 2
      omega
    exact Nat.div_le_div_right (floorLog2_mono h1 h2)

/-! ### `token2bucket` bounds (claim C5 and the index-safety backbone) -/

theorem token2bucket_nonneg (tokens : Int) {limit : Int} (h : 1 ≤ limit) :
    0 ≤ token2bucket tokens limit := by
  simp only [token2bucket]
  split_ifs <;> omega

theorem token2bucket_lt (tokens : Int) {limit : Int} (h : 1 ≤ limit) :
    token2bucket tokens limit < limit := by
  simp only [token2bucket]
  split_ifs <;> omega

theorem token2bucket_mono (limit : Int) {n1 n2 : Int} (h : n1 ≤ n2) :
    token2bucket n1 limit ≤ token2bucket n2 limit := by
  have hr : ∀ m1 m2 : Int, m1 ≤ m2 →
      (if m1 ≥ limit then limit - 1 else m1) ≤
        (if m2 ≥ limit then limit - 1 else m2) := by
    intro m1 m2 hm
    split_ifs <;> omega
  simp only [token2bucket]
  apply hr
  by_cases h1 : n1 > 0
  · rw [if_pos h1, if_pos (by omega : n2 > 0)]
    exact_mod_cast roundLog2_mono (by omega : n1.toNat ≤ n2.toNat)
  · rw [if_neg h1]
    split_ifs <;> omega

/-! ### `forwardLocked` -/

theorem MovingInterval_eq : MovingInterval = 10000000000 := rfl

theorem Size_eq (hist : RotatingHistory) : hist.Size = hist.size := rfl

theorem forwardLoop_spec : ∀ (fuel : Nat) (ts x f : Int), 0 ≤ ts - x →
    (ts - x).toNat / 10000000000 < fuel →
    forwardLoop fuel ts x f =
      (f + ((ts - x).toNat / 10000000000 : Nat),
       x + ((ts - x).toNat / 10000000000 : Nat) * MovingInterval) := by
  intro fuel
  induction fuel with
  | zero => intro ts x f _ hf; omega
  | succ fuel ih =>
    intro ts x f h0 hf
    rw [forwardLoop]
    by_cases h : MovingInterval ≤ ts - x
    · rw [if_pos h]
      rw [MovingInterval_eq] at h
      rw [ih ts (x + MovingInterval) (f + 1)
        (by rw [MovingInterval_eq]; omega) (by rw [MovingInterval_eq]; omega)]
      simp only [Prod.mk.injEq, MovingInterval_eq]
      constructor <;> omega
    · rw [if_neg h]
      rw [MovingInterval_eq] at h
      simp only [Prod.mk.injEq, MovingInterval_eq]
      constructor <;> omega

/-- Unfolding equation for `forwardLocked` in the forwarding case. -/
theorem forwardLocked_spec (hist : RotatingHistory) (ts : Int)
    (h : MovingInterval ≤ ts - hist.headTimestamp) :
    hist.forwardLocked ts =
      ({ window := hist.window.set ((hist.head + 1) % hist.window.length)
           (setSkipped
             (hist.window.getD ((hist.head + 1) % hist.window.length) [])
             (((ts - hist.headTimestamp).toNat / 10000000000 : Nat) : Int))
         head := (hist.head + 1) % hist.window.length
         tail := hist.tail
         headTimestamp := hist.headTimestamp +
           (((ts - hist.headTimestamp).toNat / 10000000000 : Nat) : Int) * MovingInterval
         size := hist.size + (((ts - hist.headTimestamp).toNat / 10000000000 : Nat) : Int) },
       (((ts - hist.headTimestamp).toNat / 10000000000 : Nat) : Int)) := by
  rw [RotatingHistory.forwardLocked, if_neg (by omega : ¬ ts - hist.headTimestamp < MovingInterval)]
  rw [forwardLoop_spec ((ts - hist.headTimestamp).toNat + 1) ts hist.headTimestamp 0
    (by rw [MovingInterval_eq] at h; omega) (by omega)]
  simp only [zero_add]

theorem forwarded_pos (hist : RotatingHistory) (ts : Int)
    (h : MovingInterval ≤ ts - hist.headTimestamp) :
    1 ≤ (hist.forwardLocked ts).2 := by
  rw [forwardLocked_spec hist ts h]
  rw [MovingInterval_eq] at h
  simp only
  omega

theorem forwardLocked_small (hist : RotatingHistory) (ts : Int)
    (h : ts - hist.headTimestamp < MovingInterval) :
    hist.forwardLocked ts = (hist, 0) := by
  rw [RotatingHistory.forwardLocked, if_pos h]

/-- After forwarding, the head timestamp is within one interval of `ts`. -/
theorem forwardLocked_headTimestamp_close (hist : RotatingHistory) (ts : Int)
    (h : MovingInterval ≤ ts - hist.headTimestamp) :
    ts - (hist.forwardLocked ts).1.headTimestamp < MovingInterval := by
  rw [forwardLocked_spec hist ts h]
  rw [MovingInterval_eq] at h ⊢
  simp only
  omega

/-- Claim C2: `forwardLocked(ts)` returns `0` and leaves the history
unchanged when `ts − headTimestamp < interval`; otherwise it returns
`forwarded = ⌊(ts − headTimestamp) / interval⌋`, advances `head` by exactly
one ring position, advances `headTimestamp` by `forwarded * interval`,
stores `forwarded` in the new head's skip slot, and adds `forwarded` to the
live-size counter. -/
theorem claim_C2 (hist : RotatingHistory) (ts : Int)
    (hlen : 0 < hist.window.length)
    (hslice : 0 < (hist.window.getD ((hist.head + 1) % hist.window.length) []).length) :
    (ts - hist.headTimestamp < MovingInterval →
      hist.forwardLocked ts = (hist, 0)) ∧
    (MovingInterval ≤ ts - hist.headTimestamp →
      (hist.forwardLocked ts).2 = (ts - hist.headTimestamp) / MovingInterval ∧
      (hist.forwardLocked ts).1.head = (hist.head + 1) % hist.window.length ∧
      (hist.forwardLocked ts).1.tail = hist.tail ∧
      (hist.forwardLocked ts).1.headTimestamp =
        hist.headTimestamp + (ts - hist.headTimestamp) / MovingInterval * MovingInterval ∧
      getSkipped ((hist.forwardLocked ts).1.window.getD
        ((hist.forwardLocked ts).1.head) []) = (hist.forwardLocked ts).2 ∧
      (hist.forwardLocked ts).1.size =
        hist.size + (ts - hist.headTimestamp) / MovingInterval) := by
  constructor
  · exact forwardLocked_small hist ts
  · intro h
    have hd : (((ts - hist.headTimestamp).toNat / 10000000000 : Nat) : Int) =
        (ts - hist.headTimestamp) / MovingInterval := by
      rw [MovingInterval_eq] at h ⊢
      omega
    rw [forwardLocked_spec hist ts h]
    have hm : (hist.head + 1) % hist.window.length < hist.window.length :=
      Nat.mod_lt _ hlen
    refine ⟨hd, rfl, rfl, by rw [hd], ?_, by rw [hd]⟩
    simp only
    rw [getD_set_self _ _ _ _ hm]
    unfold setSkipped getSkipped
    rw [List.length_set]
    exact getD_set_self _ _ _ _ (by omega)

/-- Witness for C2 at a concrete history: the fresh two-slot ring of
`NewSimpleOutputPredictor 1 1 10s` at time `25s`. -/
theorem claim_C2_witness :
    ((NewSimpleOutputPredictor 1 1 10000000000 0).history.forwardLocked 25000000000).2 =
      (25000000000 - (NewSimpleOutputPredictor 1 1 10000000000 0).history.headTimestamp) /
        MovingInterval ∧
    ((NewSimpleOutputPredictor 1 1 10000000000 0).history.forwardLocked 25000000000).1.head = 1 := by
  have h := (claim_C2 (NewSimpleOutputPredictor 1 1 10000000000 0).history 25000000000
    (by decide) (by decide)).2 (by decide)
  exact ⟨h.1, h.2.1⟩

/-! ### Idempotence of `rotate` (claim C7) -/

theorem resetTail_headTimestamp (hist : RotatingHistory) (d : outputDistribution)
    (s : List Int) (ob : Nat) :
    (hist.resetTail d s ob).1.headTimestamp = hist.headTimestamp := rfl

theorem resetTail_window_length (hist : RotatingHistory) (d : outputDistribution)
    (s : List Int) (ob : Nat) :
    (hist.resetTail d s ob).1.window.length = hist.window.length := by
  unfold RotatingHistory.resetTail
  simp only [List.length_set]

theorem rotateLoop_headTimestamp : ∀ (fuel : Nat) (p : SimpleOutputPredictor) (w : Int),
    (rotateLoop fuel p w).history.headTimestamp = p.history.headTimestamp := by
  intro fuel
  induction fuel with
  | zero => intro p w; rfl
  | succ fuel ih =>
    intro p w
    rw [rotateLoop]
    split
    · rw [ih]
      rfl
    · rfl

theorem rotateLoop_window_length : ∀ (fuel : Nat) (p : SimpleOutputPredictor) (w : Int),
    (rotateLoop fuel p w).history.window.length = p.history.window.length := by
  intro fuel
  induction fuel with
  | zero => intro p w; rfl
  | succ fuel ih =>
    intro p w
    rw [rotateLoop]
    split
    · rw [ih]
      exact resetTail_window_length ..
    · rfl

/-- Zeta-expanded unfolding of `rotate`. -/
theorem rotate_eq (p : SimpleOutputPredictor) (ts : Int) :
    p.rotate ts =
      if p.history.Size > (p.history.window.length : Int) - 1 then (p, false)
      else if (p.history.forwardLocked ts).2 = 0 then (p, true)
      else (rotateLoop ((p.history.forwardLocked ts).1.size.toNat + 1)
              { p with history := (p.history.forwardLocked ts).1 }
              ((p.history.window.length : Int) - 1), true) := rfl

/-- After any `rotate`, either the state is unchanged or the head timestamp
is within one interval of `ts`. -/
theorem rotate_cases (p : SimpleOutputPredictor) (ts : Int) :
    (p.rotate ts).1 = p ∨
      ts - (p.rotate ts).1.history.headTimestamp < MovingInterval := by
  by_cases hg : p.history.Size > (p.history.window.length : Int) - 1
  · left; rw [rotate_eq, if_pos hg]
  · by_cases hz : (p.history.forwardLocked ts).2 = 0
    · left; rw [rotate_eq, if_neg hg, if_pos hz]
    · right
      rw [rotate_eq, if_neg hg, if_neg hz]
      simp only
      rw [rotateLoop_headTimestamp]
      have hbig : MovingInterval ≤ ts - p.history.headTimestamp := by
        by_contra hc
        exact hz (by rw [forwardLocked_small p.history ts (by omega)])
      exact forwardLocked_headTimestamp_close p.history ts hbig

/-- Claim C7: rotation is idempotent in its timestamp — running `rotate(ts)`
twice in sequence produces exactly the same final state as running it once
(for every predictor state, reachable or not, and every `ts`). -/
theorem claim_C7 (p : SimpleOutputPredictor) (ts : Int) :
    ((p.rotate ts).1.rotate ts).1 = (p.rotate ts).1 := by
  rcases rotate_cases p ts with hqp | hclose
  · rw [hqp]
    exact hqp
  · by_cases hg2 : (p.rotate ts).1.history.Size >
        (((p.rotate ts).1.history.window.length : Int)) - 1
    · rw [rotate_eq (p.rotate ts).1 ts, if_pos hg2]
    · rw [rotate_eq (p.rotate ts).1 ts, if_neg hg2,
        if_pos (by rw [forwardLocked_small _ ts hclose] : ((p.rotate ts).1.history.forwardLocked ts).2 = 0)]

/-! ### Ring-position arithmetic -/

theorem liveDistN_char {R t h : Nat} (ht : t < R) (hh : h < R) :
    liveDistN R t h = if t ≤ h then h - t else h + R - t := by
  unfold liveDistN
  by_cases hc : t ≤ h
  · rw [if_pos hc]
    have he : h + R - t = (h - t) + R := by omega
    rw [he, Nat.add_mod_right]
    exact Nat.mod_eq_of_lt (by omega)
  · rw [if_neg hc]
    exact Nat.mod_eq_of_lt (by omega)

theorem liveDistN_lt {R t h : Nat} (hR : 0 < R) : liveDistN R t h < R :=
  Nat.mod_lt _ hR

theorem liveDistN_zero_iff {R t h : Nat} (ht : t < R) (hh : h < R) :
    liveDistN R t h = 0 ↔ t = h := by
  rw [liveDistN_char ht hh]
  split_ifs <;> omega

theorem liveDistN_last {R t h : Nat} (ht : t < R) (hh : h < R) :
    (t + liveDistN R t h) % R = h := by
  rw [liveDistN_char ht hh]
  by_cases hc : t ≤ h
  · rw [if_pos hc]
    have he : t + (h - t) = h := by omega
    rw [he]
    exact Nat.mod_eq_of_lt hh
  · rw [if_neg hc]
    have he : t + (h + R - t) = h + R := by omega
    rw [he, Nat.add_mod_right]
    exact Nat.mod_eq_of_lt hh

theorem succ_mod_char {R h : Nat} (hh : h < R) :
    (h + 1) % R = if h + 1 = R then 0 else h + 1 := by
  split_ifs with hc
  · rw [hc, Nat.mod_self]
  · exact Nat.mod_eq_of_lt (by omega)

theorem liveDistN_forward {R t h : Nat} (hR : 2 ≤ R) (ht : t < R) (hh : h < R)
    (hd : liveDistN R t h ≤ R - 2) :
    liveDistN R t ((h + 1) % R) = liveDistN R t h + 1 := by
  rw [liveDistN_char ht hh] at hd
  rw [liveDistN_char ht hh, succ_mod_char hh]
  by_cases hc : h + 1 = R
  · rw [if_pos hc, liveDistN_char ht (by omega : 0 < R)]
    split_ifs at hd ⊢ <;> omega
  · rw [if_neg hc, liveDistN_char ht (by omega : h + 1 < R)]
    split_ifs at hd ⊢ <;> omega

theorem liveDistN_pop {R t h : Nat} (ht : t < R) (hh : h < R)
    (hd : 1 ≤ liveDistN R t h) :
    liveDistN R ((t + 1) % R) h = liveDistN R t h - 1 := by
  rw [liveDistN_char ht hh] at hd
  rw [liveDistN_char ht hh, succ_mod_char ht]
  by_cases hc : t + 1 = R
  · rw [if_pos hc, liveDistN_char (by omega : 0 < R) hh]
    split_ifs at hd ⊢ <;> omega
  · rw [if_neg hc, liveDistN_char (by omega : t + 1 < R) hh]
    split_ifs at hd ⊢ <;> omega

theorem mem_livePositionsN {R t h q : Nat} :
    q ∈ livePositionsN R t h ↔
      ∃ k, k ≤ liveDistN R t h ∧ q = (t + k) % R := by
  simp only [livePositionsN, List.mem_map, List.mem_range, Nat.lt_succ_iff]
  constructor
  · rintro ⟨k, hk, he⟩
    exact ⟨k, hk, he.symm⟩
  · rintro ⟨k, hk, he⟩
    exact ⟨k, hk, he.symm⟩

theorem mem_liveAfterTailN {R t h q : Nat} :
    q ∈ liveAfterTailN R t h ↔
      ∃ k, k < liveDistN R t h ∧ q = (t + 1 + k) % R := by
  simp only [liveAfterTailN, List.mem_map, List.mem_range]
  constructor
  · rintro ⟨k, hk, he⟩
    exact ⟨k, hk, he.symm⟩
  · rintro ⟨k, hk, he⟩
    exact ⟨k, hk, he.symm⟩

theorem mem_livePositionsN_lt {R t h q : Nat} (hR : 0 < R)
    (hq : q ∈ livePositionsN R t h) : q < R := by
  obtain ⟨k, _, rfl⟩ := mem_livePositionsN.mp hq
  exact Nat.mod_lt _ hR

theorem mem_liveAfterTailN_lt {R t h q : Nat} (hR : 0 < R)
    (hq : q ∈ liveAfterTailN R t h) : q < R := by
  obtain ⟨k, _, rfl⟩ := mem_liveAfterTailN.mp hq
  exact Nat.mod_lt _ hR

/-- The live list decomposes as the positions before `head` plus `head`. -/
theorem livePositionsN_eq_append {R t h : Nat} (ht : t < R) (hh : h < R) :
    livePositionsN R t h =
      (List.range (liveDistN R t h)).map (fun k => (t + k) % R) ++ [h] := by
  unfold livePositionsN
  rw [List.range_succ (liveDistN R t h), List.map_append]
  simp only [List.map_cons, List.map_nil]
  rw [liveDistN_last ht hh]

/-- The successor position, written through the tail shift. -/
theorem newHead_formula {R t h : Nat} (ht : t < R) (hh : h < R) :
    (t + (liveDistN R t h + 1)) % R = (h + 1) % R := by
  have he : t + (liveDistN R t h + 1) = t + liveDistN R t h + 1 := by omega
  rw [he, ← Nat.mod_add_mod, liveDistN_last ht hh]

/-- Popping the tail: the live list is `tail` followed by the live list of
the advanced tail. -/
theorem livePositionsN_eq_cons {R t h : Nat} (ht : t < R) (hh : h < R)
    (hd : 1 ≤ liveDistN R t h) :
    livePositionsN R t h = t :: livePositionsN R ((t + 1) % R) h := by
  unfold livePositionsN
  rw [liveDistN_pop ht hh hd]
  obtain ⟨d, hdd⟩ : ∃ d, liveDistN R t h = d + 1 := ⟨liveDistN R t h - 1, by omega⟩
  rw [hdd]
  simp only [Nat.add_sub_cancel]
  rw [List.range_succ_eq_map (d + 1)]
  simp only [List.map_cons, List.map_map, Nat.add_zero]
  rw [Nat.mod_eq_of_lt ht]
  congr 1
  apply List.map_congr_left
  intro k _
  simp only [Function.comp]
  rw [Nat.mod_add_mod]
  congr 1
  omega

theorem liveAfterTailN_eq_cons {R t h : Nat} (ht : t < R) (hh : h < R)
    (hd : 1 ≤ liveDistN R t h) :
    liveAfterTailN R t h = (t + 1) % R :: liveAfterTailN R ((t + 1) % R) h := by
  unfold liveAfterTailN
  rw [liveDistN_pop ht hh hd]
  obtain ⟨d, hdd⟩ : ∃ d, liveDistN R t h = d + 1 := ⟨liveDistN R t h - 1, by omega⟩
  rw [hdd]
  simp only [Nat.add_sub_cancel]
  rw [List.range_succ_eq_map d]
  simp only [List.map_cons, List.map_map, Nat.add_zero]
  congr 1
  apply List.map_congr_left
  intro k _
  simp only [Function.comp]
  rw [Nat.add_assoc ((t + 1) % R) 1 k, Nat.mod_add_mod]
  congr 1
  omega

/-- Forwarding the head: the live list gains the new head at the end. -/
theorem livePositionsN_forward {R t h : Nat} (hR : 2 ≤ R) (ht : t < R) (hh : h < R)
    (hd : liveDistN R t h ≤ R - 2) :
    livePositionsN R t ((h + 1) % R) = livePositionsN R t h ++ [(h + 1) % R] := by
  unfold livePositionsN
  rw [liveDistN_forward hR ht hh hd]
  rw [List.range_succ (liveDistN R t h + 1), List.map_append]
  simp only [List.map_cons, List.map_nil]
  rw [newHead_formula ht hh]

theorem liveAfterTailN_forward {R t h : Nat} (hR : 2 ≤ R) (ht : t < R) (hh : h < R)
    (hd : liveDistN R t h ≤ R - 2) :
    liveAfterTailN R t ((h + 1) % R) = liveAfterTailN R t h ++ [(h + 1) % R] := by
  unfold liveAfterTailN
  rw [liveDistN_forward hR ht hh hd]
  rw [List.range_succ (liveDistN R t h), List.map_append]
  simp only [List.map_cons, List.map_nil]
  have he : t + 1 + liveDistN R t h = t + (liveDistN R t h + 1) := by omega
  rw [he, newHead_formula ht hh]

/-- The new head position is not among the old live positions. -/
theorem newHead_not_mem_livePositionsN {R t h : Nat} (hR : 2 ≤ R) (ht : t < R)
    (hh : h < R) (hd : liveDistN R t h ≤ R - 2) :
    (h + 1) % R ∉ livePositionsN R t h := by
  intro hmem
  obtain ⟨k, hk, he⟩ := mem_livePositionsN.mp hmem
  rw [← newHead_formula ht hh] at he
  have := mod_cancel_of_lt (a := k) (b := liveDistN R t h + 1)
    (by omega) (by omega) he.symm
  omega

/-- `tail` is not among the positions strictly after it. -/
theorem tail_not_mem_liveAfterTailN {R t h : Nat} (hR : 0 < R) (ht : t < R) :
    t ∉ liveAfterTailN R t h := by
  intro hmem
  obtain ⟨k, hk, he⟩ := mem_liveAfterTailN.mp hmem
  have hdlt : liveDistN R t h < R := liveDistN_lt hR
  have heq : (t + 0) % R = (t + (1 + k)) % R := by
    rw [Nat.add_zero, Nat.mod_eq_of_lt ht, he]
    congr 1
    omega
  have := mod_cancel_of_lt (a := (0:Nat)) (b := 1 + k) hR (by omega) heq
  omega

/-- When the live region is nonempty, `head` is among the positions after
`tail`. -/
theorem head_mem_liveAfterTailN {R t h : Nat} (ht : t < R) (hh : h < R)
    (hd : 1 ≤ liveDistN R t h) :
    h ∈ liveAfterTailN R t h := by
  rw [mem_liveAfterTailN]
  refine ⟨liveDistN R t h - 1, by omega, ?_⟩
  have : t + 1 + (liveDistN R t h - 1) = t + liveDistN R t h := by omega
  rw [this, liveDistN_last ht hh]

/-! ### The effect of `reset` (tail-slice retirement) -/

/-- The sum of row `i` of a flat `inputBuckets × outputBuckets` counter
vector. -/
def rowSum (l : List Int) (ob i : Nat) : Int :=
  ((List.range ob).map (fun j => l.getD (i * ob + j) 0)).sum

/-- Partial row sums over the first `n` flat indices: the contribution of
indices `k < n` lying in row `i`. -/
def rowPrefix (h0 : List Int) (ob n i : Nat) : Int :=
  ((List.range n).map (fun k => if k / ob = i then h0.getD k 0 else 0)).sum

theorem div_mod_succ {ob n : Nat} (hob : 1 ≤ ob) :
    (n % ob = ob - 1 → (n + 1) / ob = n / ob + 1 ∧ (n + 1) % ob = 0) ∧
    (n % ob ≠ ob - 1 → (n + 1) / ob = n / ob ∧ (n + 1) % ob = n % ob + 1) := by
  have hdm : ob * (n / ob) + n % ob = n := Nat.div_add_mod n ob
  have hmlt : n % ob < ob := Nat.mod_lt n (by omega)
  constructor
  · intro hlast
    have he : n + 1 = ob * (n / ob + 1) := by
      have hr : ob * (n / ob + 1) = ob * (n / ob) + ob := by ring
      omega
    constructor
    · rw [he, Nat.mul_div_cancel_left _ (by omega : 0 < ob)]
    · rw [he, Nat.mul_mod_right]
  · intro hmid
    have he : n + 1 = (n % ob + 1) + ob * (n / ob) := by omega
    constructor
    · rw [he, Nat.add_mul_div_left _ _ (by omega : 0 < ob),
        Nat.div_eq_of_lt (by omega)]
      omega
    · rw [he, Nat.add_mul_mod_self_left, Nat.mod_eq_of_lt (by omega)]

theorem rowPrefix_succ (h0 : List Int) (ob n i : Nat) :
    rowPrefix h0 ob (n + 1) i =
      rowPrefix h0 ob n i + (if n / ob = i then h0.getD n 0 else 0) := by
  unfold rowPrefix
  rw [List.range_succ n, List.map_append, List.sum_append]
  simp only [List.map_cons, List.map_nil, List.sum_cons, List.sum_nil, add_zero]

theorem rowPrefix_block (h0 : List Int) {ob : Nat} (hob : 1 ≤ ob) (m i : Nat) :
    rowPrefix h0 ob ((m + 1) * ob) i =
      rowPrefix h0 ob (m * ob) i + (if m = i then rowSum h0 ob m else 0) := by
  have hstep : ∀ j : Nat, j ≤ ob →
      rowPrefix h0 ob (m * ob + j) i =
        rowPrefix h0 ob (m * ob) i +
          (if m = i then ((List.range j).map (fun r => h0.getD (m * ob + r) 0)).sum
           else 0) := by
    intro j
    induction j with
    | zero =>
      intro _
      simp only [Nat.add_zero, List.range_zero, List.map_nil, List.sum_nil]
      split_ifs <;> omega
    | succ j ihj =>
      intro hj
      have hj' : j ≤ ob := by omega
      rw [show m * ob + (j + 1) = (m * ob + j) + 1 from by omega,
        rowPrefix_succ, ihj hj']
      have hdiv : (m * ob + j) / ob = m := by
        rw [show m * ob + j = j + ob * m from by ring,
          Nat.add_mul_div_left _ _ (by omega : 0 < ob),
          Nat.div_eq_of_lt (by omega)]
        omega
      rw [hdiv, List.range_succ j, List.map_append, List.sum_append]
      simp only [List.map_cons, List.map_nil, List.sum_cons, List.sum_nil, add_zero]
      split_ifs with hmi
      · ring
      · ring
  have := hstep ob (le_refl ob)
  rw [show (m + 1) * ob = m * ob + ob from by ring]
  rw [this]
  rfl

theorem rowPrefix_full (h0 : List Int) {ob : Nat} (hob : 1 ≤ ob) (m i : Nat) :
    rowPrefix h0 ob (m * ob) i = if i < m then rowSum h0 ob i else 0 := by
  induction m with
  | zero =>
    simp only [Nat.zero_mul, rowPrefix, List.range_zero, List.map_nil, List.sum_nil]
    split_ifs <;> omega
  | succ m ihm =>
    rw [rowPrefix_block h0 hob m i, ihm]
    by_cases him : i < m
    · rw [if_pos him, if_neg (by omega : ¬ m = i), if_pos (by omega : i < m + 1), add_zero]
    · by_cases heq : m = i
      · rw [if_neg him, if_pos heq, if_pos (by omega : i < m + 1), heq, zero_add]
      · rw [if_neg him, if_neg heq, if_neg (by omega : ¬ i < m + 1), add_zero]

/-- The state of `reset`'s loop after `n` iterations. -/
def resetFold (ob : Nat) (h0 d0 s0 : List Int) (n : Nat) :
    outputDistribution × outputDistribution × List Int × Nat × Int :=
  (List.range n).foldl (resetStep ob) (h0, d0, s0, 0, (ob : Int))

theorem reset_eq_resetFold (h0 d0 s0 : List Int) (ob : Nat) :
    reset h0 d0 s0 ob =
      ((resetFold ob h0 d0 s0 (h0.length - 1)).1.set (h0.length - 1) 0,
       (resetFold ob h0 d0 s0 (h0.length - 1)).2.1,
       (resetFold ob h0 d0 s0 (h0.length - 1)).2.2.1) := rfl

theorem resetFold_succ (ob : Nat) (h0 d0 s0 : List Int) (n : Nat) :
    resetFold ob h0 d0 s0 (n + 1) =
      resetStep ob (resetFold ob h0 d0 s0 n) n := by
  unfold resetFold
  rw [List.range_succ n, List.foldl_append]
  rfl

theorem resetFold_spec {ib ob : Nat} (hob : 1 ≤ ob) (h0 d0 s0 : List Int)
    (hh : h0.length = ib * ob + 1) (hd : d0.length = ib * ob)
    (hs : s0.length = ib) :
    ∀ n, n ≤ ib * ob →
      (resetFold ob h0 d0 s0 n).2.2.2.1 = n / ob ∧
      (resetFold ob h0 d0 s0 n).2.2.2.2 = (ob : Int) - ((n % ob : Nat) : Int) ∧
      (resetFold ob h0 d0 s0 n).1.length = h0.length ∧
      (∀ k, (resetFold ob h0 d0 s0 n).1.getD k 0 =
        if k < n then 0 else h0.getD k 0) ∧
      (resetFold ob h0 d0 s0 n).2.1.length = d0.length ∧
      (∀ k, (resetFold ob h0 d0 s0 n).2.1.getD k 0 =
        if k < n then d0.getD k 0 - h0.getD k 0 else d0.getD k 0) ∧
      (resetFold ob h0 d0 s0 n).2.2.1.length = s0.length ∧
      (∀ i, (resetFold ob h0 d0 s0 n).2.2.1.getD i 0 =
        s0.getD i 0 - rowPrefix h0 ob n i) := by
  intro n
  induction n with
  | zero =>
    intro _
    refine ⟨Nat.zero_div ob |>.symm ▸ rfl, ?_, rfl, ?_, rfl, ?_, rfl, ?_⟩
    · simp [resetFold, Nat.zero_mod]
    · intro k
      simp [resetFold]
    · intro k
      simp [resetFold]
    · intro i
      simp [resetFold, rowPrefix]
  | succ n ihn =>
    intro hn1
    have hn : n ≤ ib * ob := by omega
    obtain ⟨ihcur, ihleft, ihhl, ihh, ihdl, ihd, ihsl, ihs⟩ := ihn hn
    have hmlt : n % ob < ob := Nat.mod_lt n (by omega)
    have hnv : (resetFold ob h0 d0 s0 n).1.getD n 0 = h0.getD n 0 := by
      rw [ihh n, if_neg (by omega)]
    have hdiv : n / ob < ib := by
      rw [Nat.div_lt_iff_lt_mul (by omega : 0 < ob)]
      omega
    rw [resetFold_succ]
    rw [resetStep]
    simp only [ihcur, ihleft, hnv]
    have hzcond : ((ob : Int) - ((n % ob : Nat) : Int) - 1 = 0) ↔ (n % ob = ob - 1) := by
      omega
    by_cases hc : n % ob = ob - 1
    · rw [if_pos (hzcond.mpr hc)]
      obtain ⟨hq, hr⟩ := (div_mod_succ hob).1 hc
      refine ⟨by simpa using hq.symm, ?_, ?_, ?_, ?_, ?_, ?_, ?_⟩
      · simp only [hr]
        simp
      · simpa using ihhl
      · intro k
        by_cases hk : k = n
        · subst hk
          rw [getD_set_self _ _ _ _ (by omega), if_pos (by omega)]
        · rw [getD_set_ne _ _ _ (fun he => hk he.symm), ihh k]
          by_cases hk2 : k < n
          · rw [if_pos hk2, if_pos (by omega)]
          · rw [if_neg hk2, if_neg (by omega)]
      · simpa using ihdl
      · intro k
        by_cases hk : k = n
        · subst hk
          rw [getD_set_self _ _ _ _ (by omega), ihd k, if_neg (by omega),
            if_pos (by omega)]
        · rw [getD_set_ne _ _ _ (fun he => hk he.symm), ihd k]
          by_cases hk2 : k < n
          · rw [if_pos hk2, if_pos (by omega)]
          · rw [if_neg hk2, if_neg (by omega)]
      · simpa using ihsl
      · intro i
        rw [rowPrefix_succ]
        by_cases hi : i = n / ob
        · subst hi
          rw [getD_set_self _ _ _ _ (by omega), ihs (n / ob), if_pos rfl]
          ring
        · rw [getD_set_ne _ _ _ (fun he => hi he.symm), ihs i,
            if_neg (fun he => hi he.symm)]
          ring
    · rw [if_neg (fun he => hc (hzcond.mp he))]
      obtain ⟨hq, hr⟩ := (div_mod_succ hob).2 hc
      refine ⟨by simpa using hq.symm, ?_, ?_, ?_, ?_, ?_, ?_, ?_⟩
      · rw [hr]
        push_cast
        ring
      · simpa using ihhl
      · intro k
        by_cases hk : k = n
        · subst hk
          rw [getD_set_self _ _ _ _ (by omega), if_pos (by omega)]
        · rw [getD_set_ne _ _ _ (fun he => hk he.symm), ihh k]
          by_cases hk2 : k < n
          · rw [if_pos hk2, if_pos (by omega)]
          · rw [if_neg hk2, if_neg (by omega)]
      · simpa using ihdl
      · intro k
        by_cases hk : k = n
        · subst hk
          rw [getD_set_self _ _ _ _ (by omega), ihd k, if_neg (by omega),
            if_pos (by omega)]
        · rw [getD_set_ne _ _ _ (fun he => hk he.symm), ihd k]
          by_cases hk2 : k < n
          · rw [if_pos hk2, if_pos (by omega)]
          · rw [if_neg hk2, if_neg (by omega)]
      · simpa using ihsl
      · intro i
        rw [rowPrefix_succ]
        by_cases hi : i = n / ob
        · subst hi
          rw [getD_set_self _ _ _ _ (by omega), ihs (n / ob), if_pos rfl]
          ring
        · rw [getD_set_ne _ _ _ (fun he => hi he.symm), ihs i,
            if_neg (fun he => hi he.symm)]
          ring

theorem list_eq_of_getD {l1 l2 : List Int} (hlen : l1.length = l2.length)
    (h : ∀ k, k < l1.length → l1.getD k 0 = l2.getD k 0) : l1 = l2 := by
  apply List.ext_getElem hlen
  intro i h1 h2
  have hi := h i h1
  rwa [List.getD_eq_getElem, List.getD_eq_getElem] at hi

/-- Summary of `reset`'s effect on a well-shaped slice: the slice is fully
zeroed (skip slot included), each summary cell drops by the slice cell, and
each row sum drops by the slice's row sum. -/
theorem reset_spec {ib ob : Nat} (hob : 1 ≤ ob) (h d s : List Int)
    (hh : h.length = ib * ob + 1) (hd : d.length = ib * ob) (hs : s.length = ib) :
    (reset h d s ob).1 = List.replicate (ib * ob + 1) 0 ∧
    (reset h d s ob).2.1.length = ib * ob ∧
    (∀ k, (reset h d s ob).2.1.getD k 0 =
      d.getD k 0 - (if k < ib * ob then h.getD k 0 else 0)) ∧
    (reset h d s ob).2.2.length = ib ∧
    (∀ i, (reset h d s ob).2.2.getD i 0 =
      s.getD i 0 - (if i < ib then rowSum h ob i else 0)) := by
  obtain ⟨_, _, hhl, hhp, hdl, hdp, hsl, hsp⟩ :=
    resetFold_spec hob h d s hh hd hs (ib * ob) (le_refl _)
  rw [reset_eq_resetFold, hh]
  simp only [Nat.add_sub_cancel]
  refine ⟨?_, ?_, ?_, ?_, ?_⟩
  · apply list_eq_of_getD
    · rw [List.length_set, hhl, hh, List.length_replicate]
    · intro k hk
      rw [List.length_set, hhl, hh] at hk
      rw [getD_replicate_zero]
      by_cases hkk : k = ib * ob
      · rw [hkk]
        exact getD_set_self _ _ _ _ (by rw [hhl, hh]; omega)
      · rw [getD_set_ne _ _ _ (fun he => hkk he.symm), hhp k, if_pos (by omega)]
  · rw [hdl, hd]
  · intro k
    rw [hdp k]
    by_cases hkk : k < ib * ob
    · rw [if_pos hkk, if_pos hkk]
    · rw [if_neg hkk, if_neg hkk, sub_zero]
  · rw [hsl, hs]
  · intro i
    rw [hsp i, rowPrefix_full h hob ib i]

/-! ### Skip-slot helpers -/

theorem length_setSkipped (l : outputDistribution) (v : Int) :
    (setSkipped l v).length = l.length := List.length_set ..

theorem getSkipped_setSkipped (l : outputDistribution) (v : Int)
    (h : 0 < l.length) : getSkipped (setSkipped l v) = v := by
  unfold getSkipped setSkipped
  rw [List.length_set]
  exact getD_set_self _ _ _ _ (by omega)

theorem getD_setSkipped (l : outputDistribution) (v : Int) {k : Nat}
    (h : k < l.length - 1) : (setSkipped l v).getD k 0 = l.getD k 0 :=
  getD_set_ne _ _ _ (by omega)

theorem getSkipped_set_cell (l : outputDistribution) (v : Int) {k : Nat}
    (h : k < l.length - 1) : getSkipped (l.set k v) = getSkipped l := by
  unfold getSkipped
  rw [List.length_set]
  exact getD_set_ne _ _ _ (by omega)

theorem getSkipped_replicate (n : Nat) :
    getSkipped (List.replicate n (0 : Int)) = 0 := by
  unfold getSkipped
  exact getD_replicate_zero ..

theorem rowSum_replicate (n ob i : Nat) :
    rowSum (List.replicate n (0 : Int)) ob i = 0 := by
  unfold rowSum
  have he : ∀ j ∈ List.range ob,
      (List.replicate n (0 : Int)).getD (i * ob + j) 0 = (0 : Int) :=
    fun j _ => getD_replicate_zero ..
  rw [sum_map_congr he]
  simp

theorem sum_map_sub {α : Type} (l : List α) (f g : α → Int) :
    (l.map (fun x => f x - g x)).sum = (l.map f).sum - (l.map g).sum := by
  induction l with
  | nil => simp
  | cons a t ih =>
    simp only [List.map_cons, List.sum_cons, ih]
    ring

theorem idx_lt {i j ib ob : Nat} (hi : i < ib) (hj : j < ob) :
    i * ob + j < ib * ob := by
  calc i * ob + j < i * ob + ob := by omega
    _ = (i + 1) * ob := by ring
    _ ≤ ib * ob := Nat.mul_le_mul_right ob (by omega)

theorem idx_row_unique {i j i2 j2 ob : Nat} (hj : j < ob) (hj2 : j2 < ob)
    (he : i * ob + j = i2 * ob + j2) : i = i2 ∧ j = j2 := by
  have h1 : i = i2 := by
    by_contra hne
    rcases Nat.lt_or_ge i i2 with hlt | hge
    · have : (i + 1) * ob ≤ i2 * ob := Nat.mul_le_mul_right ob (by omega)
      have h2 : (i + 1) * ob = i * ob + ob := by ring
      omega
    · have hlt2 : i2 < i := by omega
      have : (i2 + 1) * ob ≤ i * ob := Nat.mul_le_mul_right ob (by omega)
      have h2 : (i2 + 1) * ob = i2 * ob + ob := by ring
      omega
  subst h1
  omega

/-! ### The inductive invariant -/

/-- Sum of cell `k` over the live slices (head included). -/
def cellSum (hist : RotatingHistory) (k : Nat) : Int :=
  ((livePositions hist).map (fun q => (hist.window.getD q []).getD k 0)).sum

/-- Sum of the skip slots over the live slices after the tail. -/
def skipSum (hist : RotatingHistory) : Int :=
  ((liveAfterTail hist).map (fun q => getSkipped (hist.window.getD q []))).sum

/-- The core structural invariant of a predictor state, preserved by every
individual mutation of the state (including the intermediate states inside
`rotate`'s tail-reset loop). -/
structure Core (p : SimpleOutputPredictor) : Prop where
  hR : 2 ≤ p.history.window.length
  hib : 1 ≤ p.inputBuckets
  hob : 1 ≤ p.outputBuckets
  hhead : p.history.head < p.history.window.length
  htail : p.history.tail < p.history.window.length
  hinputs : p.inputs.length = p.inputBuckets * p.outputBuckets
  hsums : p.inputsSums.length = p.inputBuckets
  hslices : ∀ q, q < p.history.window.length →
    (p.history.window.getD q []).length = p.inputBuckets * p.outputBuckets + 1
  hretired : ∀ q, q < p.history.window.length → q ∉ livePositions p.history →
    p.history.window.getD q [] = List.replicate (p.inputBuckets * p.outputBuckets + 1) 0
  hskips : ∀ q ∈ liveAfterTail p.history, 1 ≤ getSkipped (p.history.window.getD q [])
  hsize : p.history.size = skipSum p.history
  hcells : ∀ k, k < p.inputBuckets * p.outputBuckets →
    p.inputs.getD k 0 = cellSum p.history k
  hrows : ∀ i, i < p.inputBuckets →
    p.inputsSums.getD i 0 = rowSum p.inputs p.outputBuckets i

/-- The full invariant of a quiescent (post-operation) state: `Core` plus
the spare-slot bound  `size ≤ ring − 2`. -/
def Inv (p : SimpleOutputPredictor) : Prop :=
  Core p ∧ p.history.size ≤ (p.history.window.length : Int) - 2

theorem liveAfterTail_length (hist : RotatingHistory) :
    (liveAfterTail hist).length = liveDist hist := by
  unfold liveAfterTail liveAfterTailN
  rw [List.length_map, List.length_range]
  rfl

/-- Under `Core`, the ring distance is bounded by the size counter. -/
theorem Core.dist_le_size {p : SimpleOutputPredictor} (hc : Core p) :
    (liveDist p.history : Int) ≤ p.history.size := by
  rw [hc.hsize]
  unfold skipSum
  rw [← liveAfterTail_length p.history]
  exact length_le_sum_map hc.hskips

theorem Core.size_nonneg {p : SimpleOutputPredictor} (hc : Core p) :
    0 ≤ p.history.size := by
  have h1 := hc.dist_le_size
  have h2 : (0 : Int) ≤ (liveDist p.history : Nat) := Int.ofNat_nonneg _
  omega

theorem getD_replicate {α : Type} (n k : Nat) (x d : α) (h : k < n) :
    (List.replicate n x).getD k d = x := by
  simp [List.getD_eq_getElem?_getD, List.getElem?_replicate, h]

theorem livePositionsN_self {R t : Nat} (ht : t < R) : livePositionsN R t t = [t] := by
  unfold livePositionsN
  rw [show liveDistN R t t = 0 from (liveDistN_zero_iff ht ht).mpr rfl]
  rw [show List.range 1 = [0] from rfl]
  simp [Nat.mod_eq_of_lt ht]

theorem liveAfterTailN_self {R t : Nat} (ht : t < R) : liveAfterTailN R t t = [] := by
  unfold liveAfterTailN
  rw [show liveDistN R t t = 0 from (liveDistN_zero_iff ht ht).mpr rfl]
  rfl

theorem head_mem_livePositionsN {R t h : Nat} (ht : t < R) (hh : h < R) :
    h ∈ livePositionsN R t h := by
  rw [livePositionsN_eq_append ht hh]
  exact List.mem_append_right _ (List.mem_singleton.mpr rfl)

theorem liveInit_ne_head {R t h q : Nat} (hR : 0 < R) (ht : t < R) (hh : h < R)
    (hq : q ∈ (List.range (liveDistN R t h)).map (fun k => (t + k) % R)) :
    q ≠ h := by
  simp only [List.mem_map, List.mem_range] at hq
  obtain ⟨k, hk, rfl⟩ := hq
  intro he
  rw [← liveDistN_last ht hh] at he
  have hdlt : liveDistN R t h < R := liveDistN_lt hR
  have := mod_cancel_of_lt (a := k) (b := liveDistN R t h) (by omega) (by omega) he
  omega

theorem livePositions_congr {h1 h2 : RotatingHistory}
    (hl : h1.window.length = h2.window.length) (ht : h1.tail = h2.tail)
    (hh : h1.head = h2.head) : livePositions h1 = livePositions h2 := by
  unfold livePositions
  rw [hl, ht, hh]

theorem liveAfterTail_congr {h1 h2 : RotatingHistory}
    (hl : h1.window.length = h2.window.length) (ht : h1.tail = h2.tail)
    (hh : h1.head = h2.head) : liveAfterTail h1 = liveAfterTail h2 := by
  unfold liveAfterTail
  rw [hl, ht, hh]

theorem liveDist_congr {h1 h2 : RotatingHistory}
    (hl : h1.window.length = h2.window.length) (ht : h1.tail = h2.tail)
    (hh : h1.head = h2.head) : liveDist h1 = liveDist h2 := by
  unfold liveDist
  rw [hl, ht, hh]

theorem sum_map_zero {α : Type} {l : List α} {f : α → Int}
    (h : ∀ x ∈ l, f x = 0) : (l.map f).sum = 0 := by
  rw [sum_map_congr h]
  simp

theorem sum_range_ite {ob j : Nat} (hj : j < ob) (c : Int) :
    ((List.range ob).map (fun x => if x = j then c else 0)).sum = c := by
  induction ob with
  | zero => omega
  | succ ob ih =>
    rw [List.range_succ, List.map_append, List.sum_append]
    simp only [List.map_cons, List.map_nil, List.sum_cons, List.sum_nil, add_zero]
    by_cases hje : j = ob
    · subst hje
      rw [if_pos rfl, sum_map_zero (fun x hx => by
        rw [if_neg]
        intro he
        rw [he] at hx
        exact absurd (List.mem_range.mp hx) (lt_irrefl j)), zero_add]
    · rw [if_neg (fun he => hje he.symm), ih (by omega), add_zero]

theorem ceilLog2_pos {m : Nat} (h : 2 ≤ m) : 1 ≤ ceilLog2 m := by
  unfold ceilLog2
  rw [if_neg (by omega)]
  omega

theorem token2bucket_toNat_lt (tokens : Int) {b : Nat} (hb : 1 ≤ b) :
    (token2bucket tokens (b : Int)).toNat < b := by
  have hcast : (1 : Int) ≤ (b : Int) := by exact_mod_cast hb
  have h1 := token2bucket_lt tokens hcast
  have h2 := token2bucket_nonneg tokens hcast
  omega

/-- A freshly zeroed predictor state satisfies the invariant. -/
theorem Inv_blank (R ib ob : Nat) (now : Int) (hR : 2 ≤ R)
    (hib : 1 ≤ ib) (hob : 1 ≤ ob) :
    Inv { history := { window := List.replicate R (List.replicate (ib * ob + 1) 0)
                       head := 0
                       tail := 0
                       headTimestamp := now
                       size := 0 }
          inputs := List.replicate (ib * ob) 0
          inputsSums := List.replicate ib 0
          inputBuckets := ib
          outputBuckets := ob } := by
  have hlen : (List.replicate R (List.replicate (ib * ob + 1) (0:Int))).length = R :=
    List.length_replicate ..
  have hslice : ∀ q, q < R →
      (List.replicate R (List.replicate (ib * ob + 1) (0:Int))).getD q [] =
        List.replicate (ib * ob + 1) 0 := fun q hq => getD_replicate _ _ _ _ hq
  constructor
  · constructor
    · simpa [hlen]
    · exact hib
    · exact hob
    · simpa [hlen] using (by omega : 0 < R)
    · simpa [hlen] using (by omega : 0 < R)
    · exact List.length_replicate ..
    · exact List.length_replicate ..
    · intro q hq
      rw [hlen] at hq
      simp only
      rw [hslice q hq, List.length_replicate]
    · intro q hq _
      rw [hlen] at hq
      exact hslice q hq
    · intro q hq
      exfalso
      simp only [liveAfterTail, hlen] at hq
      rw [liveAfterTailN_self (by omega : 0 < R)] at hq
      exact absurd hq (List.not_mem_nil q)
    · simp only [skipSum, liveAfterTail, hlen]
      rw [liveAfterTailN_self (by omega : 0 < R)]
      rfl
    · intro k hk
      simp only [cellSum, livePositions, hlen]
      rw [livePositionsN_self (by omega : 0 < R)]
      simp only [List.map_cons, List.map_nil, List.sum_cons, List.sum_nil]
      rw [hslice 0 (by omega), getD_replicate_zero, getD_replicate_zero]
      simp
    · intro i hi
      rw [getD_replicate_zero, rowSum_replicate]
  · simp only [hlen]
    have : (0:Int) ≤ (R : Int) - 2 := by
      have : (2:Int) ≤ (R : Int) := by exact_mod_cast hR
      omega
    simpa using this

/-- The constructor establishes the invariant whenever the configured sizes
are positive and the window is non-zero. -/
theorem Inv_init (maxIn maxOut w : Nat) (now : Int)
    (hin : 1 ≤ maxIn) (hout : 1 ≤ maxOut) (hw : 1 ≤ w) :
    Inv (NewSimpleOutputPredictor maxIn maxOut w now) := by
  have hR : 2 ≤ w / MovingInterval.toNat +
      (if w % MovingInterval.toNat > 0 then 2 else 1) := by
    rw [show MovingInterval.toNat = 10000000000 from rfl]
    split_ifs with hmod
    · omega
    · omega
  exact Inv_blank _ _ _ now hR (ceilLog2_pos (by omega)) (ceilLog2_pos (by omega))

/-- The locked ingest step (summary cell, row sum, head slice) preserves
`Core` and leaves the cursors, the timestamps and the size unchanged. -/
theorem addLocked_Core (p : SimpleOutputPredictor) (hc : Core p)
    (inT outT cnt : Int) :
    Core (p.addLocked inT outT cnt) ∧
    (p.addLocked inT outT cnt).history.size = p.history.size ∧
    (p.addLocked inT outT cnt).history.window.length = p.history.window.length ∧
    (p.addLocked inT outT cnt).history.head = p.history.head ∧
    (p.addLocked inT outT cnt).history.tail = p.history.tail ∧
    (p.addLocked inT outT cnt).history.headTimestamp = p.history.headTimestamp := by
  obtain ⟨hR, hib, hob, hhead, htail, hinputs, hsums, hslices, hretired, hskips,
    hsize, hcells, hrows⟩ := hc
  have hi0lt : (token2bucket inT (p.inputBuckets : Int)).toNat < p.inputBuckets :=
    token2bucket_toNat_lt inT hib
  have hj0lt : (token2bucket outT (p.outputBuckets : Int)).toNat < p.outputBuckets :=
    token2bucket_toNat_lt outT hob
  set i0 := (token2bucket inT (p.inputBuckets : Int)).toNat with hi0
  set j0 := (token2bucket outT (p.outputBuckets : Int)).toNat with hj0
  set idx := i0 * p.outputBuckets + j0 with hidx
  have hidxlt : idx < p.inputBuckets * p.outputBuckets := idx_lt hi0lt hj0lt
  set headSlice := p.history.window.getD p.history.head [] with hheadSlice
  have hhsl : headSlice.length = p.inputBuckets * p.outputBuckets + 1 :=
    hslices _ hhead
  set W : List outputDistribution := p.history.window.set p.history.head
    (headSlice.set idx (headSlice.getD idx 0 + cnt)) with hW
  set H : RotatingHistory :=
    { window := W
      head := p.history.head
      tail := p.history.tail
      headTimestamp := p.history.headTimestamp
      size := p.history.size } with hH
  set I : List Int := p.inputs.set idx (p.inputs.getD idx 0 + cnt) with hI
  set S : List Int := p.inputsSums.set i0 (p.inputsSums.getD i0 0 + cnt) with hS
  have haddeq : p.addLocked inT outT cnt =
      { history := H
        inputs := I
        inputsSums := S
        inputBuckets := p.inputBuckets
        outputBuckets := p.outputBuckets } := rfl
  rw [haddeq]
  have hwl : W.length = p.history.window.length := List.length_set ..
  have hwq : ∀ q, q ≠ p.history.head → W.getD q [] = p.history.window.getD q [] :=
    fun q hq => getD_set_ne _ _ _ (fun he => hq he.symm)
  have hwh : W.getD p.history.head [] =
      headSlice.set idx (headSlice.getD idx 0 + cnt) :=
    getD_set_self _ _ _ _ hhead
  have hlp : livePositions H = livePositions p.history :=
    livePositions_congr hwl rfl rfl
  have hlat : liveAfterTail H = liveAfterTail p.history :=
    liveAfterTail_congr hwl rfl rfl
  refine ⟨⟨?_, hib, hob, ?_, ?_, ?_, ?_, ?_, ?_, ?_, ?_, ?_, ?_⟩, rfl, hwl, rfl, rfl, rfl⟩
  · show 2 ≤ W.length
    rw [hwl]; exact hR
  · show p.history.head < W.length
    rw [hwl]; exact hhead
  · show p.history.tail < W.length
    rw [hwl]; exact htail
  · show I.length = p.inputBuckets * p.outputBuckets
    rw [hI, List.length_set]; exact hinputs
  · show S.length = p.inputBuckets
    rw [hS, List.length_set]; exact hsums
  · show ∀ q, q < W.length →
      (W.getD q []).length = p.inputBuckets * p.outputBuckets + 1
    intro q hq
    rw [hwl] at hq
    by_cases hqh : q = p.history.head
    · rw [hqh, hwh, List.length_set]
      exact hhsl
    · rw [hwq q hqh]
      exact hslices q hq
  · show ∀ q, q < W.length → q ∉ livePositions H →
      W.getD q [] = List.replicate (p.inputBuckets * p.outputBuckets + 1) 0
    intro q hq hqmem
    rw [hwl] at hq
    rw [hlp] at hqmem
    have hqh : q ≠ p.history.head := by
      intro he
      rw [he] at hqmem
      exact hqmem (head_mem_livePositionsN htail hhead)
    rw [hwq q hqh]
    exact hretired q hq hqmem
  · show ∀ q ∈ liveAfterTail H, 1 ≤ getSkipped (W.getD q [])
    intro q hq
    rw [hlat] at hq
    by_cases hqh : q = p.history.head
    · rw [hqh, hwh, getSkipped_set_cell _ _ (by rw [hhsl]; omega)]
      rw [hqh] at hq
      exact hskips _ hq
    · rw [hwq q hqh]
      exact hskips _ hq
  · show p.history.size = skipSum H
    rw [hsize]
    unfold skipSum
    rw [hlat]
    apply sum_map_congr
    intro q hq
    show getSkipped (p.history.window.getD q []) = getSkipped (W.getD q [])
    by_cases hqh : q = p.history.head
    · rw [hqh, hwh, getSkipped_set_cell _ _ (by rw [hhsl]; omega)]
    · rw [hwq q hqh]
  · show ∀ k, k < p.inputBuckets * p.outputBuckets → I.getD k 0 = cellSum H k
    intro k hk
    have hcsH : cellSum H k =
        ((livePositions p.history).map (fun q => (W.getD q []).getD k 0)).sum := by
      unfold cellSum
      rw [hlp]
    rw [hcsH]
    by_cases hkidx : k = idx
    · rw [hkidx, hI, getD_set_self _ _ _ _ (by rw [hinputs]; exact hidxlt),
        hcells idx hidxlt]
      unfold cellSum livePositions
      rw [livePositionsN_eq_append htail hhead]
      rw [List.map_append, List.map_append, List.sum_append, List.sum_append]
      simp only [List.map_cons, List.map_nil, List.sum_cons, List.sum_nil, add_zero]
      rw [hwh, getD_set_self _ _ _ _ (by rw [hhsl]; omega)]
      have hinit : ∀ q ∈ (List.range (liveDistN p.history.window.length
            p.history.tail p.history.head)).map
          (fun k2 => (p.history.tail + k2) % p.history.window.length),
          (W.getD q []).getD idx 0 = (p.history.window.getD q []).getD idx 0 := by
        intro q hq
        have hqh := liveInit_ne_head (by omega) htail hhead hq
        rw [hwq q hqh]
      rw [sum_map_congr hinit]
      ring
    · rw [hI, getD_set_ne _ _ _ (fun he => hkidx he.symm), hcells k hk]
      unfold cellSum
      apply sum_map_congr
      intro q _
      show (p.history.window.getD q []).getD k 0 = (W.getD q []).getD k 0
      by_cases hqh : q = p.history.head
      · rw [hqh, hwh, getD_set_ne _ _ _ (fun he => hkidx he.symm)]
      · rw [hwq q hqh]
  · show ∀ i, i < p.inputBuckets → S.getD i 0 = rowSum I p.outputBuckets i
    intro i hi
    by_cases hii : i = i0
    · rw [hii, hS, getD_set_self _ _ _ _ (by rw [hsums]; exact hi0lt),
        hrows i0 hi0lt]
      unfold rowSum
      have hsub : ((List.range p.outputBuckets).map
          (fun j => I.getD (i0 * p.outputBuckets + j) 0)).sum -
          ((List.range p.outputBuckets).map
            (fun j => p.inputs.getD (i0 * p.outputBuckets + j) 0)).sum =
          ((List.range p.outputBuckets).map (fun j => if j = j0 then cnt else 0)).sum := by
        rw [← sum_map_sub]
        apply sum_map_congr
        intro j hj
        have hjlt := List.mem_range.mp hj
        show I.getD (i0 * p.outputBuckets + j) 0 -
          p.inputs.getD (i0 * p.outputBuckets + j) 0 = if j = j0 then cnt else 0
        by_cases hjj : j = j0
        · rw [hjj, if_pos rfl, hI, getD_set_self _ _ _ _ (by rw [hinputs]; exact hidxlt)]
          ring
        · rw [if_neg hjj, hI, getD_set_ne _ _ _ (by
            intro he
            exact hjj (idx_row_unique hj0lt hjlt he).2.symm)]
          ring
      rw [sum_range_ite hj0lt cnt] at hsub
      omega
    · rw [hS, getD_set_ne _ _ _ (fun he => hii he.symm), hrows i hi]
      unfold rowSum
      apply sum_map_congr
      intro j hj
      have hjlt := List.mem_range.mp hj
      show p.inputs.getD (i * p.outputBuckets + j) 0 =
        I.getD (i * p.outputBuckets + j) 0
      rw [hI, getD_set_ne _ _ _ (by
        intro he
        exact hii (idx_row_unique hj0lt hjlt he).1.symm)]

/-- `addLocked` preserves the full invariant. -/
theorem addLocked_Inv (p : SimpleOutputPredictor) (hI : Inv p)
    (inT outT cnt : Int) : Inv (p.addLocked inT outT cnt) := by
  obtain ⟨hc, hb⟩ := hI
  obtain ⟨hcore, hsz, hwl, _, _, _⟩ := addLocked_Core p hc inT outT cnt
  exact ⟨hcore, by rw [hsz, hwl]; exact hb⟩

/-- The old tail is not among the live positions once the tail advances. -/
theorem tail_not_mem_shifted {R t h : Nat} (hR : 0 < R) (ht : t < R) (hh : h < R)
    (hd : 1 ≤ liveDistN R t h) :
    t ∉ livePositionsN R ((t + 1) % R) h := by
  intro hmem
  obtain ⟨k, hk, he⟩ := mem_livePositionsN.mp hmem
  rw [liveDistN_pop ht hh hd] at hk
  have hdlt : liveDistN R t h < R := liveDistN_lt hR
  rw [Nat.mod_add_mod] at he
  have he2 : t = (t + (1 + k)) % R := by
    rw [show t + (1 + k) = t + 1 + k from by omega]
    exact he
  have heq : (t + 0) % R = (t + (1 + k)) % R := by
    rw [← he2, Nat.add_zero]
    exact Nat.mod_eq_of_lt ht
  have := mod_cancel_of_lt (a := (0 : Nat)) (b := 1 + k) hR (by omega) heq
  omega

/-- The body of `rotate`'s tail-reset loop, as a standalone function. -/
def popStep (p : SimpleOutputPredictor) : SimpleOutputPredictor :=
  let r := p.history.resetTail p.inputs p.inputsSums p.outputBuckets
  { p with history := r.1, inputs := r.2.1, inputsSums := r.2.2 }

theorem rotateLoop_succ (fuel : Nat) (p : SimpleOutputPredictor) (w : Int) :
    rotateLoop (fuel + 1) p w =
      if p.history.Size ≥ w then rotateLoop fuel (popStep p) w else p := rfl

/-- One pass of the tail-reset loop preserves `Core`, decreases the size
counter by at least one, and leaves the head, head slice, head timestamp
and ring length unchanged. -/
theorem popStep_spec (p : SimpleOutputPredictor) (hc : Core p)
    (hd : 1 ≤ liveDist p.history) :
    Core (popStep p) ∧
    (popStep p).history.size ≤ p.history.size - 1 ∧
    (popStep p).history.head = p.history.head ∧
    (popStep p).history.headTimestamp = p.history.headTimestamp ∧
    (popStep p).history.window.length = p.history.window.length ∧
    (popStep p).history.window.getD p.history.head [] =
      p.history.window.getD p.history.head [] ∧
    (popStep p).inputBuckets = p.inputBuckets ∧
    (popStep p).outputBuckets = p.outputBuckets ∧
    liveDist (popStep p).history = liveDist p.history - 1 := by
  obtain ⟨hR, hib, hob, hhead, htail, hinputs, hsums, hslices, hretired, hskips,
    hsize, hcells, hrows⟩ := hc
  have hd' : 1 ≤ liveDistN p.history.window.length p.history.tail p.history.head := hd
  have hTlen : (p.history.window.getD p.history.tail []).length =
      p.inputBuckets * p.outputBuckets + 1 := hslices _ htail
  obtain ⟨hrs1, hrs2l, hrs2, hrs3l, hrs3⟩ :=
    reset_spec hob (p.history.window.getD p.history.tail []) p.inputs p.inputsSums
      hTlen hinputs hsums
  set RS := reset (p.history.window.getD p.history.tail []) p.inputs p.inputsSums
    p.outputBuckets with hRS
  set W : List outputDistribution := p.history.window.set p.history.tail RS.1 with hW
  have hwl : W.length = p.history.window.length := List.length_set ..
  set T1 := (p.history.tail + 1) % W.length with hT1
  have hT1R : T1 = (p.history.tail + 1) % p.history.window.length := by
    rw [hT1, hwl]
  have hT1lt : T1 < p.history.window.length := by
    rw [hT1R]
    exact Nat.mod_lt _ (by omega)
  have hT1ne : T1 ≠ p.history.tail := by
    rw [hT1R]
    intro he
    have heq : (p.history.tail + 1) % p.history.window.length =
        (p.history.tail + 0) % p.history.window.length := by
      rw [he, Nat.add_zero]
      exact (Nat.mod_eq_of_lt htail).symm
    have := mod_cancel_of_lt (a := (1 : Nat)) (b := (0 : Nat))
      (by omega) (by omega) heq
    omega
  have hwq : ∀ q, q ≠ p.history.tail → W.getD q [] = p.history.window.getD q [] :=
    fun q hq => getD_set_ne _ _ _ (fun he => hq he.symm)
  have hwt : W.getD p.history.tail [] = RS.1 := getD_set_self _ _ _ _ htail
  have hpop : popStep p =
      { history := { window := W
                     head := p.history.head
                     tail := T1
                     headTimestamp := p.history.headTimestamp
                     size := p.history.size - getSkipped (W.getD T1 []) }
        inputs := RS.2.1
        inputsSums := RS.2.2
        inputBuckets := p.inputBuckets
        outputBuckets := p.outputBuckets } := rfl
  rw [hpop]
  -- decompositions of the live region
  have hconsLive : livePositionsN p.history.window.length p.history.tail p.history.head =
      p.history.tail :: livePositionsN p.history.window.length T1 p.history.head := by
    rw [hT1R]
    exact livePositionsN_eq_cons htail hhead hd'
  have hconsAfter : liveAfterTailN p.history.window.length p.history.tail p.history.head =
      T1 :: liveAfterTailN p.history.window.length T1 p.history.head := by
    rw [hT1R]
    exact liveAfterTailN_eq_cons htail hhead hd'
  have hT1mem : T1 ∈ liveAfterTail p.history := by
    show T1 ∈ liveAfterTailN p.history.window.length p.history.tail p.history.head
    rw [hconsAfter]
    exact List.mem_cons_self ..
  have hskipT1 : 1 ≤ getSkipped (p.history.window.getD T1 []) := hskips _ hT1mem
  have hWskipT1 : getSkipped (W.getD T1 []) = getSkipped (p.history.window.getD T1 []) := by
    rw [hwq _ hT1ne]
  -- members of the shifted live lists avoid the old tail
  have hnewLive_ne_tail : ∀ q ∈ livePositionsN p.history.window.length T1 p.history.head,
      q ≠ p.history.tail := by
    intro q hq he
    rw [he] at hq
    rw [hT1R] at hq
    exact tail_not_mem_shifted (by omega) htail hhead hd' hq
  have hnewAfter_ne_tail : ∀ q ∈ liveAfterTailN p.history.window.length T1 p.history.head,
      q ≠ p.history.tail := by
    intro q hq he
    have hmem : q ∈ liveAfterTailN p.history.window.length p.history.tail p.history.head := by
      rw [hconsAfter]
      exact List.mem_cons_of_mem _ hq
    rw [he] at hmem
    exact tail_not_mem_liveAfterTailN (by omega : 0 < p.history.window.length) htail hmem
  refine ⟨⟨?_, hib, hob, ?_, ?_, ?_, ?_, ?_, ?_, ?_, ?_, ?_, ?_⟩, ?_, rfl, rfl, hwl, ?_, rfl, rfl, ?_⟩
  · show 2 ≤ W.length
    rw [hwl]; exact hR
  · show p.history.head < W.length
    rw [hwl]; exact hhead
  · show T1 < W.length
    rw [hwl]; exact hT1lt
  · show RS.2.1.length = p.inputBuckets * p.outputBuckets
    exact hrs2l
  · show RS.2.2.length = p.inputBuckets
    exact hrs3l
  · show ∀ q, q < W.length →
      (W.getD q []).length = p.inputBuckets * p.outputBuckets + 1
    intro q hq
    rw [hwl] at hq
    by_cases hqt : q = p.history.tail
    · rw [hqt, hwt, hrs1, List.length_replicate]
    · rw [hwq q hqt]
      exact hslices q hq
  · show ∀ q, q < W.length →
      q ∉ livePositionsN W.length T1 p.history.head →
      W.getD q [] = List.replicate (p.inputBuckets * p.outputBuckets + 1) 0
    intro q hq hqmem
    rw [hwl] at hq hqmem
    by_cases hqt : q = p.history.tail
    · rw [hqt, hwt, hrs1]
    · rw [hwq q hqt]
      apply hretired q hq
      show q ∉ livePositionsN p.history.window.length p.history.tail p.history.head
      rw [hconsLive]
      intro hmem
      rcases List.mem_cons.mp hmem with he | hm
      · exact hqt he
      · exact hqmem hm
  · show ∀ q ∈ liveAfterTailN W.length T1 p.history.head,
      1 ≤ getSkipped (W.getD q [])
    intro q hq
    rw [hwl] at hq
    have hqt : q ≠ p.history.tail := hnewAfter_ne_tail q hq
    rw [hwq q hqt]
    apply hskips
    show q ∈ liveAfterTailN p.history.window.length p.history.tail p.history.head
    rw [hconsAfter]
    exact List.mem_cons_of_mem _ hq
  · show p.history.size - getSkipped (W.getD T1 []) =
      ((liveAfterTailN W.length T1 p.history.head).map
        (fun q => getSkipped (W.getD q []))).sum
    rw [hwl, hWskipT1]
    have hmapeq : (liveAfterTailN p.history.window.length T1 p.history.head).map
        (fun q => getSkipped (W.getD q [])) =
        (liveAfterTailN p.history.window.length T1 p.history.head).map
        (fun q => getSkipped (p.history.window.getD q [])) := by
      apply List.map_congr_left
      intro q hq
      rw [hwq q (hnewAfter_ne_tail q hq)]
    rw [hmapeq]
    have hold : p.history.size =
        ((liveAfterTailN p.history.window.length p.history.tail p.history.head).map
          (fun q => getSkipped (p.history.window.getD q []))).sum := hsize
    rw [hconsAfter] at hold
    simp only [List.map_cons, List.sum_cons] at hold
    omega
  · show ∀ k, k < p.inputBuckets * p.outputBuckets →
      RS.2.1.getD k 0 =
        ((livePositionsN W.length T1 p.history.head).map
          (fun q => (W.getD q []).getD k 0)).sum
    intro k hk
    rw [hwl]
    have hmapeq : (livePositionsN p.history.window.length T1 p.history.head).map
        (fun q => (W.getD q []).getD k 0) =
        (livePositionsN p.history.window.length T1 p.history.head).map
        (fun q => (p.history.window.getD q []).getD k 0) := by
      apply List.map_congr_left
      intro q hq
      rw [hwq q (hnewLive_ne_tail q hq)]
    rw [hmapeq, hrs2 k, if_pos hk]
    have hold : p.inputs.getD k 0 =
        ((livePositionsN p.history.window.length p.history.tail p.history.head).map
          (fun q => (p.history.window.getD q []).getD k 0)).sum := hcells k hk
    rw [hconsLive] at hold
    simp only [List.map_cons, List.sum_cons] at hold
    omega
  · show ∀ i, i < p.inputBuckets →
      RS.2.2.getD i 0 = rowSum RS.2.1 p.outputBuckets i
    intro i hi
    rw [hrs3 i, if_pos hi, hrows i hi]
    unfold rowSum
    have hmapeq : (List.range p.outputBuckets).map
        (fun j => RS.2.1.getD (i * p.outputBuckets + j) 0) =
        (List.range p.outputBuckets).map
        (fun j => p.inputs.getD (i * p.outputBuckets + j) 0 -
          (p.history.window.getD p.history.tail []).getD (i * p.outputBuckets + j) 0) := by
      apply List.map_congr_left
      intro j hj
      rw [hrs2 _, if_pos (idx_lt hi (List.mem_range.mp hj))]
    rw [hmapeq, sum_map_sub]
  · show p.history.size - getSkipped (W.getD T1 []) ≤ p.history.size - 1
    rw [hWskipT1]
    omega
  · show W.getD p.history.head [] = p.history.window.getD p.history.head []
    apply hwq
    intro he
    rw [he] at hd'
    rw [(liveDistN_zero_iff htail htail).mpr rfl] at hd'
    omega
  · show liveDistN W.length T1 p.history.head =
      liveDistN p.history.window.length p.history.tail p.history.head - 1
    rw [hwl, hT1R]
    exact liveDistN_pop htail hhead hd'

theorem liveAfterTailN_subset {R t h q : Nat}
    (hq : q ∈ liveAfterTailN R t h) : q ∈ livePositionsN R t h := by
  obtain ⟨k, hk, rfl⟩ := mem_liveAfterTailN.mp hq
  rw [mem_livePositionsN]
  exact ⟨1 + k, by omega, by rw [show t + (1 + k) = t + 1 + k from by omega]⟩

theorem le_sum_of_mem {α : Type} {l : List α} {f : α → Int} {x : α}
    (hx : x ∈ l) (h : ∀ y ∈ l, 0 ≤ f y) : f x ≤ (l.map f).sum := by
  induction l with
  | nil => exact absurd hx (List.not_mem_nil x)
  | cons a t ih =>
    simp only [List.map_cons, List.sum_cons]
    rcases List.mem_cons.mp hx with he | hm
    · subst he
      have := sum_map_nonneg (fun y hy => h y (List.mem_cons_of_mem _ hy))
      omega
    · have h1 := ih hm (fun y hy => h y (List.mem_cons_of_mem _ hy))
      have h2 := h a (List.mem_cons_self ..)
      omega

theorem all_zero_of_getD {l : List Int}
    (h : ∀ k, k < l.length → l.getD k 0 = 0) : ∀ x ∈ l, x = 0 := by
  intro x hx
  obtain ⟨i, hi, he⟩ := List.mem_iff_getElem.mp hx
  rw [← he, ← List.getD_eq_getElem l 0 hi]
  exact h i hi

/-- Forwarding the head under the invariant: `Core` is preserved, the new
head is the zeroed spare slot carrying `forwarded` in its skip slot, and the
size counter grows by `forwarded`. -/
theorem forward_Core (p : SimpleOutputPredictor) (hI : Inv p) (ts : Int)
    (hbig : MovingInterval ≤ ts - p.history.headTimestamp) :
    Core { p with history := (p.history.forwardLocked ts).1 } ∧
    (p.history.forwardLocked ts).1.size =
      p.history.size + (p.history.forwardLocked ts).2 ∧
    1 ≤ (p.history.forwardLocked ts).2 ∧
    (p.history.forwardLocked ts).1.head =
      (p.history.head + 1) % p.history.window.length ∧
    (p.history.forwardLocked ts).1.window.length = p.history.window.length ∧
    getSkipped ((p.history.forwardLocked ts).1.window.getD
      (p.history.forwardLocked ts).1.head []) = (p.history.forwardLocked ts).2 ∧
    (∀ k, k < p.inputBuckets * p.outputBuckets →
      ((p.history.forwardLocked ts).1.window.getD
        (p.history.forwardLocked ts).1.head []).getD k 0 = 0) := by
  obtain ⟨⟨hR, hib, hob, hhead, htail, hinputs, hsums, hslices, hretired, hskips,
    hsize, hcells, hrows⟩, hbound⟩ := hI
  have hfpos : 1 ≤ (p.history.forwardLocked ts).2 := forwarded_pos p.history ts hbig
  have hdle : liveDist p.history ≤ p.history.window.length - 2 := by
    have h1 : (liveDist p.history : Int) ≤ p.history.size := by
      rw [hsize]
      unfold skipSum
      rw [← liveAfterTail_length p.history]
      exact length_le_sum_map hskips
    omega
  set R := p.history.window.length with hRdef
  set h1 := (p.history.head + 1) % R with hh1
  have hh1lt : h1 < R := Nat.mod_lt _ (by omega)
  have hh1notmem : h1 ∉ livePositions p.history :=
    newHead_not_mem_livePositionsN hR htail hhead hdle
  have hspare : p.history.window.getD h1 [] =
      List.replicate (p.inputBuckets * p.outputBuckets + 1) 0 :=
    hretired h1 hh1lt hh1notmem
  rw [forwardLocked_spec p.history ts hbig]
  set F : Int := (((ts - p.history.headTimestamp).toNat / 10000000000 : Nat) : Int)
    with hF
  set NS : outputDistribution := setSkipped (p.history.window.getD h1 []) F with hNS
  have hNSlen : NS.length = p.inputBuckets * p.outputBuckets + 1 := by
    rw [hNS, length_setSkipped]
    exact hslices _ hh1lt
  have hNSskip : getSkipped NS = F := by
    rw [hNS]
    apply getSkipped_setSkipped
    rw [hslices _ hh1lt]
    omega
  have hNScell : ∀ k, k < p.inputBuckets * p.outputBuckets → NS.getD k 0 = 0 := by
    intro k hk
    rw [hNS, hspare]
    unfold setSkipped
    rw [List.length_replicate]
    rw [getD_set_ne _ _ _ (by omega)]
    exact getD_replicate_zero ..
  set W : List outputDistribution := p.history.window.set h1 NS with hW
  have hwl : W.length = R := List.length_set ..
  have hwq : ∀ q, q ≠ h1 → W.getD q [] = p.history.window.getD q [] :=
    fun q hq => getD_set_ne _ _ _ (fun he => hq he.symm)
  have hwh1 : W.getD h1 [] = NS := getD_set_self _ _ _ _ (by rw [hW] at *; exact hh1lt)
  have hfposF : (1 : Int) ≤ F := by
    rw [hF]
    rw [MovingInterval_eq] at hbig
    omega
  have hlp : livePositionsN W.length p.history.tail h1 =
      livePositionsN R p.history.tail p.history.head ++ [h1] := by
    rw [hwl, hh1]
    exact livePositionsN_forward hR htail hhead hdle
  have hlat : liveAfterTailN W.length p.history.tail h1 =
      liveAfterTailN R p.history.tail p.history.head ++ [h1] := by
    rw [hwl, hh1]
    exact liveAfterTailN_forward hR htail hhead hdle
  have hmemlive_ne : ∀ q, q ∈ livePositionsN R p.history.tail p.history.head →
      q ≠ h1 := fun q hq he => hh1notmem (he ▸ hq)
  have hmemafter_ne : ∀ q, q ∈ liveAfterTailN R p.history.tail p.history.head →
      q ≠ h1 := fun q hq => hmemlive_ne q (liveAfterTailN_subset hq)
  refine ⟨⟨?_, hib, hob, ?_, ?_, hinputs, hsums, ?_, ?_, ?_, ?_, ?_, hrows⟩,
    rfl, hfposF, rfl, hwl, ?_, ?_⟩
  · show 2 ≤ W.length
    rw [hwl]; exact hR
  · show h1 < W.length
    rw [hwl]; exact hh1lt
  · show p.history.tail < W.length
    rw [hwl]; exact htail
  · show ∀ q, q < W.length →
      (W.getD q []).length = p.inputBuckets * p.outputBuckets + 1
    intro q hq
    rw [hwl] at hq
    by_cases hqh : q = h1
    · rw [hqh, hwh1]
      exact hNSlen
    · rw [hwq q hqh]
      exact hslices q hq
  · show ∀ q, q < W.length → q ∉ livePositionsN W.length p.history.tail h1 →
      W.getD q [] = List.replicate (p.inputBuckets * p.outputBuckets + 1) 0
    intro q hq hqmem
    rw [hwl] at hq
    rw [hlp] at hqmem
    have hq1 : q ∉ livePositionsN R p.history.tail p.history.head :=
      fun hm => hqmem (List.mem_append_left _ hm)
    have hq2 : q ≠ h1 :=
      fun he => hqmem (List.mem_append_right _ (he ▸ List.mem_singleton.mpr rfl))
    rw [hwq q hq2]
    exact hretired q hq hq1
  · show ∀ q ∈ liveAfterTailN W.length p.history.tail h1,
      1 ≤ getSkipped (W.getD q [])
    intro q hq
    rw [hlat] at hq
    rcases List.mem_append.mp hq with hm | hm
    · rw [hwq q (hmemafter_ne q hm)]
      exact hskips q hm
    · rw [List.mem_singleton.mp hm, hwh1, hNSskip]
      exact hfposF
  · show p.history.size + F =
      ((liveAfterTailN W.length p.history.tail h1).map
        (fun q => getSkipped (W.getD q []))).sum
    rw [hlat, List.map_append, List.sum_append]
    simp only [List.map_cons, List.map_nil, List.sum_cons, List.sum_nil, add_zero]
    rw [hwh1, hNSskip]
    have hmapeq : (liveAfterTailN R p.history.tail p.history.head).map
        (fun q => getSkipped (W.getD q [])) =
        (liveAfterTailN R p.history.tail p.history.head).map
        (fun q => getSkipped (p.history.window.getD q [])) := by
      apply List.map_congr_left
      intro q hq
      rw [hwq q (hmemafter_ne q hq)]
    rw [hmapeq]
    have hsize' : p.history.size =
        ((liveAfterTailN R p.history.tail p.history.head).map
          (fun q => getSkipped (p.history.window.getD q []))).sum := hsize
    omega
  · show ∀ k, k < p.inputBuckets * p.outputBuckets →
      p.inputs.getD k 0 =
        ((livePositionsN W.length p.history.tail h1).map
          (fun q => (W.getD q []).getD k 0)).sum
    intro k hk
    rw [hlp, List.map_append, List.sum_append]
    simp only [List.map_cons, List.map_nil, List.sum_cons, List.sum_nil, add_zero]
    rw [hwh1, hNScell k hk]
    have hmapeq : (livePositionsN R p.history.tail p.history.head).map
        (fun q => (W.getD q []).getD k 0) =
        (livePositionsN R p.history.tail p.history.head).map
        (fun q => (p.history.window.getD q []).getD k 0) := by
      apply List.map_congr_left
      intro q hq
      rw [hwq q (hmemlive_ne q hq)]
    rw [hmapeq]
    have hcells' : p.inputs.getD k 0 =
        ((livePositionsN R p.history.tail p.history.head).map
          (fun q => (p.history.window.getD q []).getD k 0)).sum := hcells k hk
    omega
  · show getSkipped (W.getD h1 []) = F
    rw [hwh1, hNSskip]
  · show ∀ k, k < p.inputBuckets * p.outputBuckets →
      (W.getD h1 []).getD k 0 = 0
    intro k hk
    rw [hwh1]
    exact hNScell k hk

/-- The tail-reset loop, run with sufficient fuel from a `Core` state,
reaches `size < window` while preserving `Core`, the head cursor, the head
slice, the head timestamp and the ring length. -/
theorem rotateLoop_spec : ∀ (fuel : Nat) (p : SimpleOutputPredictor) (w : Int),
    Core p → w = (p.history.window.length : Int) - 1 →
    p.history.size.toNat < fuel →
    Core (rotateLoop fuel p w) ∧
    (rotateLoop fuel p w).history.size < w ∧
    (rotateLoop fuel p w).history.head = p.history.head ∧
    (rotateLoop fuel p w).history.headTimestamp = p.history.headTimestamp ∧
    (rotateLoop fuel p w).history.window.length = p.history.window.length ∧
    (rotateLoop fuel p w).history.window.getD p.history.head [] =
      p.history.window.getD p.history.head [] ∧
    (rotateLoop fuel p w).inputBuckets = p.inputBuckets ∧
    (rotateLoop fuel p w).outputBuckets = p.outputBuckets := by
  intro fuel
  induction fuel with
  | zero =>
    intro p w _ _ hf
    omega
  | succ fuel ih =>
    intro p w hc hw hf
    rw [rotateLoop_succ]
    by_cases hcond : p.history.Size ≥ w
    · rw [if_pos hcond]
      rw [Size_eq] at hcond
      have hwpos : 1 ≤ w := by
        have := hc.hR
        omega
      have hd : 1 ≤ liveDist p.history := by
        by_contra hd0
        have hzero : liveDist p.history = 0 := by omega
        have hempty : liveAfterTail p.history = [] := by
          unfold liveAfterTail liveAfterTailN
          rw [show liveDistN p.history.window.length p.history.tail p.history.head = 0
            from hzero]
          rfl
        have hsz : p.history.size = ((liveAfterTail p.history).map
            (fun q => getSkipped (p.history.window.getD q []))).sum := hc.hsize
        rw [hempty] at hsz
        simp only [List.map_nil, List.sum_nil] at hsz
        omega
      obtain ⟨hcore', hsz', hhd', hts', hwl', hhs', hib', hob', _⟩ := popStep_spec p hc hd
      have hsn : (popStep p).history.size.toNat < fuel := by
        have h0 := hcore'.size_nonneg
        omega
      obtain ⟨ihc, ihsz, ihhd, ihts, ihwl, ihhs, ihib, ihob⟩ :=
        ih (popStep p) w hcore' (by rw [hw, hwl']) hsn
      refine ⟨ihc, ihsz, ?_, ?_, ?_, ?_, ?_, ?_⟩
      · rw [ihhd, hhd']
      · rw [ihts, hts']
      · rw [ihwl, hwl']
      · rw [hhd'] at ihhs
        rw [ihhs, hhs']
      · rw [ihib, hib']
      · rw [ihob, hob']
    · rw [if_neg hcond]
      rw [Size_eq] at hcond
      exact ⟨hc, by omega, rfl, rfl, rfl, rfl, rfl, rfl⟩

theorem rotate_window_length (p : SimpleOutputPredictor) (ts : Int) :
    (p.rotate ts).1.history.window.length = p.history.window.length := by
  rw [rotate_eq]
  split_ifs with h1 h2
  · rfl
  · rfl
  · simp only
    rw [rotateLoop_window_length]
    by_cases hsmall : ts - p.history.headTimestamp < MovingInterval
    · rw [forwardLocked_small p.history ts hsmall]
    · rw [forwardLocked_spec p.history ts (by omega)]
      exact List.length_set ..

/-- `rotate` preserves the full invariant. -/
theorem rotate_Inv (p : SimpleOutputPredictor) (hI : Inv p) (ts : Int) :
    Inv (p.rotate ts).1 := by
  rw [rotate_eq]
  by_cases hg : p.history.Size > (p.history.window.length : Int) - 1
  · rw [if_pos hg]
    exact hI
  · rw [if_neg hg]
    by_cases hz : (p.history.forwardLocked ts).2 = 0
    · rw [if_pos hz]
      exact hI
    · rw [if_neg hz]
      simp only
      have hbig : MovingInterval ≤ ts - p.history.headTimestamp := by
        by_contra hc
        exact hz (by rw [forwardLocked_small p.history ts (by omega)])
      obtain ⟨hcore1, hsz1, hf1, hhd1, hwl1, _, _⟩ := forward_Core p hI ts hbig
      obtain ⟨ihc, ihsz, _, _, ihwl, _, _, _⟩ :=
        rotateLoop_spec ((p.history.forwardLocked ts).1.size.toNat + 1)
          { p with history := (p.history.forwardLocked ts).1 }
          ((p.history.window.length : Int) - 1) hcore1
          (by show (p.history.window.length : Int) - 1 =
                ((p.history.forwardLocked ts).1.window.length : Int) - 1
              rw [hwl1])
          (by show (p.history.forwardLocked ts).1.size.toNat <
                (p.history.forwardLocked ts).1.size.toNat + 1
              omega)
      refine ⟨ihc, ?_⟩
      have ihwl' : (rotateLoop ((p.history.forwardLocked ts).1.size.toNat + 1)
          { p with history := (p.history.forwardLocked ts).1 }
          ((p.history.window.length : Int) - 1)).history.window.length =
          p.history.window.length := by
        rw [ihwl]
        exact hwl1
      rw [ihwl']
      omega

theorem tryRotate_Inv (p : SimpleOutputPredictor) (hI : Inv p) (ts : Int) :
    Inv (p.tryRotate ts) := by
  unfold SimpleOutputPredictor.tryRotate
  split_ifs
  · exact hI
  · exact rotate_Inv p hI ts

theorem addLocked_window_length (p : SimpleOutputPredictor)
    (inT outT cnt : Int) :
    (p.addLocked inT outT cnt).history.window.length =
      p.history.window.length := List.length_set ..

theorem tryRotate_window_length (p : SimpleOutputPredictor) (ts : Int) :
    (p.tryRotate ts).history.window.length = p.history.window.length := by
  unfold SimpleOutputPredictor.tryRotate
  split_ifs
  · rfl
  · exact rotate_window_length p ts

theorem AddTrace_Inv (p : SimpleOutputPredictor) (hI : Inv p)
    (inT outT cnt ts : Int) : Inv (p.AddTraceWithTimestamp inT outT cnt ts) :=
  addLocked_Inv _ (tryRotate_Inv p hI ts) _ _ _

/-- The states reachable from a freshly constructed predictor by a sequence
of `AddTraceWithTimestamp` calls and completed rotations, executed
sequentially. -/
inductive Reachable (maxIn maxOut w : Nat) : SimpleOutputPredictor → Prop where
  | init (now : Int) :
      Reachable maxIn maxOut w (NewSimpleOutputPredictor maxIn maxOut w now)
  | add {p : SimpleOutputPredictor} (inT outT cnt ts : Int) :
      Reachable maxIn maxOut w p →
      Reachable maxIn maxOut w (p.AddTraceWithTimestamp inT outT cnt ts)
  | rot {p : SimpleOutputPredictor} (ts : Int) :
      Reachable maxIn maxOut w p → Reachable maxIn maxOut w (p.rotate ts).1

theorem New_window_length (maxIn maxOut w : Nat) (now : Int) :
    (NewSimpleOutputPredictor maxIn maxOut w now).history.window.length =
      w / 10000000000 + (if w % 10000000000 > 0 then 2 else 1) := by
  show (List.replicate _ _).length = _
  rw [List.length_replicate]
  rw [show MovingInterval.toNat = 10000000000 from rfl]

theorem AddTrace_window_length (p : SimpleOutputPredictor)
    (inT outT cnt ts : Int) :
    (p.AddTraceWithTimestamp inT outT cnt ts).history.window.length =
      p.history.window.length := by
  show ((p.tryRotate ts).addLocked inT outT cnt).history.window.length = _
  rw [addLocked_window_length, tryRotate_window_length]

/-- Every reachable state of a validly configured predictor satisfies the
invariant and keeps the ring size fixed by the constructor. -/
theorem Reachable_Inv {maxIn maxOut w : Nat} {p : SimpleOutputPredictor}
    (hin : 1 ≤ maxIn) (hout : 1 ≤ maxOut) (hw : 1 ≤ w)
    (hr : Reachable maxIn maxOut w p) :
    Inv p ∧ p.history.window.length =
      w / 10000000000 + (if w % 10000000000 > 0 then 2 else 1) := by
  induction hr with
  | init now =>
    exact ⟨Inv_init maxIn maxOut w now hin hout hw, New_window_length ..⟩
  | add inT outT cnt ts _ ih =>
    exact ⟨AddTrace_Inv _ ih.1 _ _ _ _,
      (AddTrace_window_length ..).trans ih.2⟩
  | rot ts _ ih =>
    exact ⟨rotate_Inv _ ih.1 ts, (rotate_window_length _ ts).trans ih.2⟩

/-- A rotation whose timestamp is at least `window + interval` past the head
timestamp clears every summary counter and the size counter. -/
theorem rotate_drain (p : SimpleOutputPredictor) (w : Nat) (ts : Int)
    (hI : Inv p)
    (hwin : p.history.window.length =
      w / 10000000000 + (if w % 10000000000 > 0 then 2 else 1))
    (hts : (w : Int) + MovingInterval ≤ ts - p.history.headTimestamp) :
    (∀ x ∈ (p.rotate ts).1.inputs, x = 0) ∧
    (∀ x ∈ (p.rotate ts).1.inputsSums, x = 0) ∧
    (p.rotate ts).1.history.Size = 0 := by
  have hbig : MovingInterval ≤ ts - p.history.headTimestamp := by
    have : (0 : Int) ≤ (w : Nat) := Int.ofNat_nonneg _
    omega
  have hguard : ¬ p.history.Size > (p.history.window.length : Int) - 1 := by
    rw [Size_eq]
    have := hI.2
    have := hI.1.hR
    omega
  have hz : ¬ (p.history.forwardLocked ts).2 = 0 := by
    have := forwarded_pos p.history ts hbig
    omega
  have hF2 : (p.history.forwardLocked ts).2 =
      (((ts - p.history.headTimestamp).toNat / 10000000000 : Nat) : Int) := by
    rw [forwardLocked_spec p.history ts hbig]
  have hFge : (p.history.window.length : Int) - 1 ≤ (p.history.forwardLocked ts).2 := by
    rw [hF2, hwin]
    rw [MovingInterval_eq] at hts
    by_cases hm : w % 10000000000 > 0
    · rw [if_pos hm]
      omega
    · rw [if_neg hm]
      omega
  obtain ⟨hcore1, hsz1, hf1, hhd1, hwl1, hskip1, hcells1⟩ := forward_Core p hI ts hbig
  have hrot : (p.rotate ts).1 =
      rotateLoop ((p.history.forwardLocked ts).1.size.toNat + 1)
        { p with history := (p.history.forwardLocked ts).1 }
        ((p.history.window.length : Int) - 1) := by
    rw [rotate_eq, if_neg hguard, if_neg hz]
  obtain ⟨ihc, ihsz, ihhd, _, ihwl, ihhs, ihib, ihob⟩ :=
    rotateLoop_spec ((p.history.forwardLocked ts).1.size.toNat + 1)
      { p with history := (p.history.forwardLocked ts).1 }
      ((p.history.window.length : Int) - 1) hcore1
      (by show (p.history.window.length : Int) - 1 =
            ((p.history.forwardLocked ts).1.window.length : Int) - 1
          rw [hwl1])
      (by show (p.history.forwardLocked ts).1.size.toNat <
            (p.history.forwardLocked ts).1.size.toNat + 1
          omega)
  rw [hrot]
  set p2 := rotateLoop ((p.history.forwardLocked ts).1.size.toNat + 1)
    { p with history := (p.history.forwardLocked ts).1 }
    ((p.history.window.length : Int) - 1) with hp2
  have ihhd' : p2.history.head = (p.history.forwardLocked ts).1.head := ihhd
  have ihhs' : p2.history.window.getD ((p.history.forwardLocked ts).1.head) [] =
      (p.history.forwardLocked ts).1.window.getD
        ((p.history.forwardLocked ts).1.head) [] := ihhs
  -- the loop drained the ring completely: tail meets head
  have hdz : liveDist p2.history = 0 := by
    by_contra hd
    have hd1 : 1 ≤ liveDist p2.history := by omega
    have hmem : p2.history.head ∈ liveAfterTail p2.history :=
      head_mem_liveAfterTailN ihc.htail ihc.hhead hd1
    have hle : getSkipped (p2.history.window.getD p2.history.head []) ≤
        p2.history.size := by
      rw [ihc.hsize]
      exact le_sum_of_mem hmem (fun y hy => le_trans (by omega) (ihc.hskips y hy))
    rw [ihhd', ihhs', hskip1] at hle
    omega
  have hth : p2.history.tail = p2.history.head :=
    (liveDistN_zero_iff ihc.htail ihc.hhead).mp hdz
  have hcellzero : ∀ k, k < p2.inputBuckets * p2.outputBuckets →
      p2.inputs.getD k 0 = 0 := by
    intro k hk
    rw [ihc.hcells k hk]
    show ((livePositionsN p2.history.window.length p2.history.tail
      p2.history.head).map (fun q => (p2.history.window.getD q []).getD k 0)).sum = 0
    rw [hth, livePositionsN_self ihc.hhead]
    simp only [List.map_cons, List.map_nil, List.sum_cons, List.sum_nil, add_zero]
    rw [ihhd', ihhs']
    apply hcells1 k
    rw [ihib, ihob] at hk
    exact hk
  refine ⟨?_, ?_, ?_⟩
  · apply all_zero_of_getD
    intro k hk
    rw [ihc.hinputs] at hk
    exact hcellzero k hk
  · apply all_zero_of_getD
    intro i hi
    rw [ihc.hsums] at hi
    rw [ihc.hrows i hi]
    unfold rowSum
    apply sum_map_zero
    intro j hj
    exact hcellzero _ (idx_lt hi (List.mem_range.mp hj))
  · rw [Size_eq, ihc.hsize]
    show ((liveAfterTailN p2.history.window.length p2.history.tail
      p2.history.head).map (fun q => getSkipped (p2.history.window.getD q []))).sum = 0
    rw [hth, liveAfterTailN_self ihc.hhead]
    rfl

/-! ### Bound on the prediction value -/

theorem predictLoop_le (inputs : outputDistribution) (cursor : Int)
    (scanRange ob : Nat) :
    ∀ (fuel : Nat) (acc : Int) (i : Nat),
      predictLoop inputs cursor scanRange ob fuel acc i ≤ (2 : Int) ^ (ob - 1) := by
  intro fuel
  induction fuel with
  | zero =>
    intro acc i
    rw [predictLoop]
  | succ fuel ihn =>
    intro acc i
    rw [predictLoop]
    by_cases hi : i < scanRange
    · rw [if_pos hi]
      by_cases hcur : cursor < acc + inputs.getD i 0
      · rw [if_pos hcur]
        exact pow_le_pow_right₀ (by norm_num : (1 : Int) ≤ 2) (by omega)
      · rw [if_neg hcur]
        exact ihn _ _
    · rw [if_neg hi]

theorem one_le_two_pow (k : Nat) : (1 : Int) ≤ 2 ^ k := by
  calc (1 : Int) = 2 ^ 0 := rfl
    _ ≤ 2 ^ k := pow_le_pow_right₀ (by norm_num : (1 : Int) ≤ 2) (Nat.zero_le k)

/-- Whatever the RNG does, `Predict` never returns more than
`2^(outputBuckets − 1)`. -/
theorem Predict_le (p : SimpleOutputPredictor) (rand : Int → Int) (grand : Nat)
    (inT : Int) :
    (p.Predict rand grand inT).2 ≤ (2 : Int) ^ (p.outputBuckets - 1) := by
  unfold SimpleOutputPredictor.Predict
  by_cases h : p.inputsSums.getD (token2bucket inT (p.inputBuckets : Int)).toNat 0 = 0
  · rw [if_pos h]
    show coldPredict grand inT ≤ _
    rw [show coldPredict grand inT = 1 from rfl]
    exact one_le_two_pow _
  · rw [if_neg h]
    exact predictLoop_le _ _ _ _ _ _ _

/-! ### The claims -/

/-- Claim C1: for every sequence of `AddTraceWithTimestamp` calls and
completed rotations executed sequentially, and every input bucket `i` and
output bucket `j`, the summary cell `inputs[i*outputBuckets+j]` equals the
sum of cell `(i,j)` over all live slices of the ring (the head slice plus
the slices between tail and head), and the row sum `inputsSums[i]` equals
the sum over `j` of `inputs[i*outputBuckets+j]`. -/
theorem claim_C1 {maxIn maxOut w : Nat} {p : SimpleOutputPredictor}
    (hin : 1 ≤ maxIn) (hout : 1 ≤ maxOut) (hw : 1 ≤ w)
    (hr : Reachable maxIn maxOut w p) :
    ∀ i j, i < p.inputBuckets → j < p.outputBuckets →
      p.inputs.getD (i * p.outputBuckets + j) 0 =
        ((livePositions p.history).map
          (fun q => (p.history.window.getD q []).getD (i * p.outputBuckets + j) 0)).sum ∧
      p.inputsSums.getD i 0 =
        ((List.range p.outputBuckets).map
          (fun j2 => p.inputs.getD (i * p.outputBuckets + j2) 0)).sum := by
  obtain ⟨⟨hc, _⟩, _⟩ := Reachable_Inv hin hout hw hr
  intro i j hi hj
  exact ⟨hc.hcells _ (idx_lt hi hj), hc.hrows i hi⟩

/-- Witness for C1: a one-slot configuration after a single trace. -/
theorem claim_C1_witness :
    ((NewSimpleOutputPredictor 1 1 10000000000 0).AddTraceWithTimestamp 1 1 5 0).inputs.getD
        (0 * ((NewSimpleOutputPredictor 1 1 10000000000 0).AddTraceWithTimestamp 1 1 5 0).outputBuckets + 0) 0 =
      ((livePositions ((NewSimpleOutputPredictor 1 1 10000000000 0).AddTraceWithTimestamp 1 1 5 0).history).map
        (fun q => ((((NewSimpleOutputPredictor 1 1 10000000000 0).AddTraceWithTimestamp 1 1 5 0).history.window.getD q []).getD
          (0 * ((NewSimpleOutputPredictor 1 1 10000000000 0).AddTraceWithTimestamp 1 1 5 0).outputBuckets + 0) 0))).sum :=
  (claim_C1 (le_refl 1) (le_refl 1) (by omega)
    (Reachable.add 1 1 5 0 (Reachable.init 0)) 0 0 (by decide) (by decide)).1

/-- Claim C3, counterexample to the claim as stated: rotation only runs from
the ingest path, so if no `AddTrace`/`AddTraceWithTimestamp` call occurs the
state — summary included — simply does not change while time advances.  After
`AddTraceWithTimestamp(100, 100, 5, t=0)` on a 60 s predictor, at `t = 80 s`
(≥ window + interval later) with no further calls, the summary row of bucket
7 still holds 5 (not 0), and `Predict(100)` still samples the histogram
(returning 128) instead of cold-predicting. -/
theorem claim_C3_counterexample :
    ((NewSimpleOutputPredictor 1024 1024 60000000000 0).AddTraceWithTimestamp
        100 100 5 0).inputsSums.getD 7 0 = 5 ∧
    (((NewSimpleOutputPredictor 1024 1024 60000000000 0).AddTraceWithTimestamp
        100 100 5 0).Predict (fun _ => 0) 0 100).2 = 128 ∧
    (5 : Int) ≠ 0 := by
  refine ⟨by decide, by decide, by decide⟩

/-- Claim C3 as amended: starting from any reachable predictor state, if a
rotation is performed with a timestamp at least `window + interval` past the
head timestamp (which is what the next ingest triggers after such a pause),
then afterwards every summary counter (all `inputs` cells and all
`inputsSums` entries) is zero and `size()` returns 0. -/
theorem claim_C3_amended {maxIn maxOut w : Nat} {p : SimpleOutputPredictor}
    (hin : 1 ≤ maxIn) (hout : 1 ≤ maxOut) (hw : 1 ≤ w)
    (hr : Reachable maxIn maxOut w p) (ts : Int)
    (hts : (w : Int) + MovingInterval ≤ ts - p.history.headTimestamp) :
    (∀ x ∈ (p.rotate ts).1.inputs, x = 0) ∧
    (∀ x ∈ (p.rotate ts).1.inputsSums, x = 0) ∧
    (p.rotate ts).1.history.Size = 0 := by
  obtain ⟨hI, hwin⟩ := Reachable_Inv hin hout hw hr
  exact rotate_drain p w ts hI hwin hts

/-- Witness for the amended C3: a 10 s-window predictor with one trace,
rotated 20 s later, drains to zero. -/
theorem claim_C3_witness :
    ((((NewSimpleOutputPredictor 1 1 10000000000 0).AddTraceWithTimestamp
      1 1 5 0).rotate 20000000000).1.history.Size = 0) :=
  (claim_C3_amended (le_refl 1) (le_refl 1) (by omega)
    (Reachable.add 1 1 5 0 (Reachable.init 0)) 20000000000 (by decide)).2.2

/-- Claim C4, counterexample to the claim as stated: with
`max_input = max_output = 1024` the derived bucket counts are
`⌈log2 1025⌉ = 11`, not 10, so `2^(output_buckets−1)` is `1024`, not `512`;
after `AddTrace(10^6, 10^6, 1)` the prediction for `10^6` input tokens is
`1024 > 512`. -/
theorem claim_C4_counterexample :
    (((NewSimpleOutputPredictor 1024 1024 60000000000 0).AddTraceWithTimestamp
        1000000 1000000 1 0).Predict (fun _ => 0) 0 1000000).2 = 1024 ∧
    ¬ ((1024 : Int) ≤ 512) := by
  refine ⟨by decide, by decide⟩

/-- Claim C4 as amended: on a predictor with `max_input = max_output = 1024`
(`inputBuckets = outputBuckets = ⌈log2 1025⌉ = 11`),
`AddTrace(10^6, 10^6, 1)` records the observation in the top input and
output bucket (index `limit − 1 = 10`, flat index 120), and every subsequent
`Predict(10^6)` returns at most `2^(outputBuckets−1) = 2^10 = 1024`,
whatever the RNG returns. -/
theorem claim_C4_amended :
    (NewSimpleOutputPredictor 1024 1024 60000000000 0).inputBuckets = 11 ∧
    (NewSimpleOutputPredictor 1024 1024 60000000000 0).outputBuckets = 11 ∧
    (token2bucket 1000000 (11 : Int)) = 10 ∧
    ((NewSimpleOutputPredictor 1024 1024 60000000000 0).AddTraceWithTimestamp
      1000000 1000000 1 0).inputs.getD (10 * 11 + 10) 0 = 1 ∧
    ∀ (rand : Int → Int) (grand : Nat),
      (((NewSimpleOutputPredictor 1024 1024 60000000000 0).AddTraceWithTimestamp
        1000000 1000000 1 0).Predict rand grand 1000000).2 ≤ 1024 := by
  refine ⟨by decide, by decide, by decide, by decide, ?_⟩
  intro rand grand
  have h := Predict_le ((NewSimpleOutputPredictor 1024 1024 60000000000 0).AddTraceWithTimestamp
    1000000 1000000 1 0) rand grand 1000000
  have hob : ((NewSimpleOutputPredictor 1024 1024 60000000000 0).AddTraceWithTimestamp
      1000000 1000000 1 0).outputBuckets = 11 := by decide
  rw [hob] at h
  norm_num at h
  exact h

/-- Claim C5: for every `limit ≥ 1`, `token2bucket(·, limit)` is monotone
non-decreasing over `n ≥ 0`, and `token2bucket(n, limit) < limit` for every
`n ≥ 0`. -/
theorem claim_C5 (limit : Int) (hl : 1 ≤ limit) :
    (∀ n1 n2 : Int, 0 ≤ n1 → n1 ≤ n2 →
      token2bucket n1 limit ≤ token2bucket n2 limit) ∧
    (∀ n : Int, 0 ≤ n → token2bucket n limit < limit) := by
  exact ⟨fun n1 n2 _ h => token2bucket_mono limit h,
    fun n _ => token2bucket_lt n hl⟩

/-- Witness for C5 at `limit = 3`, `n1 = 2`, `n2 = 5`. -/
theorem claim_C5_witness :
    token2bucket 2 3 ≤ token2bucket 5 3 ∧ token2bucket 5 3 < 3 :=
  ⟨(claim_C5 3 (by norm_num)).1 2 5 (by norm_num) (by norm_num),
   (claim_C5 3 (by norm_num)).2 5 (by norm_num)⟩

/-- Claim C6, counterexample to the claim as stated: construction performs
no validation and has no error return.  With `maxInputTokens = 0` the
constructor still returns a predictor — with zero input buckets and empty
summary vectors — instead of failing. -/
theorem claim_C6_counterexample :
    (NewSimpleOutputPredictor 0 1024 60000000000 0).inputBuckets = 0 ∧
    (NewSimpleOutputPredictor 0 1024 60000000000 0).inputs = [] ∧
    (NewSimpleOutputPredictor 0 1024 60000000000 0).inputsSums = [] := by
  refine ⟨by decide, by decide, by decide⟩

/-- Claim C6 as amended: `NewSimpleOutputPredictor` never fails and surfaces
no error; for every configuration (zero sizes and zero windows included) it
returns a predictor whose fields are fully determined by the arguments.
(Negative maxima in Go would panic inside `make` via a `NaN` conversion
rather than return an error.) -/
theorem claim_C6_amended (maxIn maxOut wdur : Nat) (now : Int) :
    (NewSimpleOutputPredictor maxIn maxOut wdur now).inputBuckets =
      ceilLog2 (maxIn + 1) ∧
    (NewSimpleOutputPredictor maxIn maxOut wdur now).outputBuckets =
      ceilLog2 (maxOut + 1) ∧
    (NewSimpleOutputPredictor maxIn maxOut wdur now).inputs.length =
      ceilLog2 (maxIn + 1) * ceilLog2 (maxOut + 1) ∧
    (NewSimpleOutputPredictor maxIn maxOut wdur now).inputsSums.length =
      ceilLog2 (maxIn + 1) ∧
    (NewSimpleOutputPredictor maxIn maxOut wdur now).history.window.length =
      wdur / 10000000000 + (if wdur % 10000000000 > 0 then 2 else 1) ∧
    (NewSimpleOutputPredictor maxIn maxOut wdur now).history.size = 0 ∧
    (NewSimpleOutputPredictor maxIn maxOut wdur now).history.headTimestamp = now := by
  refine ⟨rfl, rfl, List.length_replicate .., List.length_replicate ..,
    New_window_length .., rfl, rfl⟩

/-- Claim C8: for every predictor constructed with positive maxima (and a
positive window) and every reachable state, the indices computed by
`AddTraceWithTimestamp` and `Predict` are in bounds: the input bucket is
below `inputBuckets`, the output bucket below `outputBuckets`, and the flat
index is inside `inputs`, `inputsSums` and the head slice. -/
theorem claim_C8 {maxIn maxOut w : Nat} {p : SimpleOutputPredictor}
    (hin : 1 ≤ maxIn) (hout : 1 ≤ maxOut) (hw : 1 ≤ w)
    (hr : Reachable maxIn maxOut w p) (inT outT : Int) :
    (token2bucket inT (p.inputBuckets : Int)).toNat < p.inputBuckets ∧
    (token2bucket outT (p.outputBuckets : Int)).toNat < p.outputBuckets ∧
    p.bucket2idx (token2bucket inT (p.inputBuckets : Int)).toNat
      (token2bucket outT (p.outputBuckets : Int)).toNat < p.inputs.length ∧
    (token2bucket inT (p.inputBuckets : Int)).toNat < p.inputsSums.length ∧
    p.bucket2idx (token2bucket inT (p.inputBuckets : Int)).toNat
      (token2bucket outT (p.outputBuckets : Int)).toNat <
      (p.history.window.getD p.history.head []).length := by
  obtain ⟨⟨hc, _⟩, _⟩ := Reachable_Inv hin hout hw hr
  have hi := token2bucket_toNat_lt inT hc.hib
  have hj := token2bucket_toNat_lt outT hc.hob
  have hidx : p.bucket2idx (token2bucket inT (p.inputBuckets : Int)).toNat
      (token2bucket outT (p.outputBuckets : Int)).toNat <
      p.inputBuckets * p.outputBuckets := idx_lt hi hj
  refine ⟨hi, hj, ?_, ?_, ?_⟩
  · rw [hc.hinputs]
    exact hidx
  · rw [hc.hsums]
    exact hi
  · rw [hc.hslices _ hc.hhead]
    omega

/-- Witness for C8: the initial state of a small predictor, with
out-of-range token counts (clamped to the top buckets). -/
theorem claim_C8_witness :
    (token2bucket 1000000 ((NewSimpleOutputPredictor 1 1 10000000000 0).inputBuckets : Int)).toNat <
      (NewSimpleOutputPredictor 1 1 10000000000 0).inputBuckets ∧
    ((NewSimpleOutputPredictor 1 1 10000000000 0).bucket2idx
      (token2bucket 1000000 ((NewSimpleOutputPredictor 1 1 10000000000 0).inputBuckets : Int)).toNat
      (token2bucket (-3) ((NewSimpleOutputPredictor 1 1 10000000000 0).outputBuckets : Int)).toNat <
      (NewSimpleOutputPredictor 1 1 10000000000 0).inputs.length) := by
  have h := claim_C8 (le_refl 1) (le_refl 1) (by omega : 1 ≤ 10000000000)
    (Reachable.init 0) 1000000 (-3)
  exact ⟨h.1, h.2.2.1⟩

/-- Claim C9: `DefaultColdPrediction` is the compile-time constant
`OptimisticColdPrediction`, so `coldPredict` returns 1 for every input (the
`Random`, `Input` and `Pessimistic` branches are unreachable), and `Predict`
returns 1 whenever the row sum of the input's bucket is zero. -/
theorem claim_C9 :
    DefaultColdPrediction = ColdPredictionStrategy.OptimisticColdPrediction ∧
    (∀ (grand : Nat) (inT : Int), coldPredict grand inT = 1) ∧
    (∀ (p : SimpleOutputPredictor) (rand : Int → Int) (grand : Nat) (inT : Int),
      p.inputsSums.getD (token2bucket inT (p.inputBuckets : Int)).toNat 0 = 0 →
      (p.Predict rand grand inT).2 = 1) := by
  refine ⟨rfl, fun grand inT => rfl, ?_⟩
  intro p rand grand inT h
  unfold SimpleOutputPredictor.Predict
  rw [if_pos h]
  rfl

/-- Witness for C9: the cold path of a fresh predictor. -/
theorem claim_C9_witness :
    (((NewSimpleOutputPredictor 1024 1024 60000000000 0).Predict
      (fun _ => 0) 0 200).2 = 1) :=
  claim_C9.2.2 (NewSimpleOutputPredictor 1024 1024 60000000000 0)
    (fun _ => 0) 0 200 (by decide)

/-- Claim C10: `Predict` is read-only — it returns the predictor state
unchanged (its body performs only loads), for every state, RNG and input. -/
theorem claim_C10 (p : SimpleOutputPredictor) (rand : Int → Int) (grand : Nat)
    (inT : Int) : (p.Predict rand grand inT).1 = p := by
  unfold SimpleOutputPredictor.Predict
  by_cases h : p.inputsSums.getD (token2bucket inT (p.inputBuckets : Int)).toNat 0 = 0
  · rw [if_pos h]
  · rw [if_neg h]

end OutputPredictor

